import Mathlib

/-!
# A verification development of the `stylecs` attribute store

This file gives a shallow embedding, in Lean 4, of the core of the `stylecs`
crate (the typed, heterogeneous attribute store), and proves or refutes the
frozen claims about it.

Embedding conventions, fixed once here:

* Interned identifiers (`Identifier` in `src/names.rs`, backed by a global
  `StringPool`) are pointer-stable: equal text yields the identical backing
  allocation.  All comparisons inside the sorted store go through
  `str::as_ptr`.  We model a token's pointer identity by a natural number
  (its index in the intern pool — see `StringPool.get` below, which realizes
  exactly this numbering); distinct interned texts have distinct pool
  addresses, and the program never relies on how pointer values are ordered,
  only that they form a fixed linear order, so `Nat` ids are a faithful
  stand-in for the claims considered here.
* The text-level side of `names.rs` (validation, `Display`, `FromStr`) is
  modelled over `List Char` (`Str` below); the byte-wise ASCII test of
  `validate_identifier` accepts a UTF-8 byte sequence exactly when every
  character is in `[A-Za-z0-9_]`, which is what the character-level model
  checks.
* Rust code that can panic (`expect`, the failing downcast inside
  `AnyComponent::merge_with`) is embedded with `Option`/`Except`: `none`
  (resp. `.error`) is the panic.
* `alot::Lots` (the slot arena inside `Object`) is used by `object.rs` only
  through `push`, indexing and in-place replacement — never removal — so it
  is modelled as an append-only `List`, with `LotId` the index.
-/

/-- `Ordering`-valued comparison on `Nat`, i.e. `usize::cmp` / pointer `cmp`. -/
abbrev natCmp (a b : Nat) : Ordering := compare a b

/-- `Name` (src/names.rs): a pair of interned identifiers.  Here each
`Identifier` is represented by its pointer identity (intern-pool index); the
text itself is irrelevant to the sorted store. -/
structure Name where
  authority : Nat
  name : Nat
deriving DecidableEq

/-- The runtime contract a concrete component type supplies (the
`StyleComponent`/`DynamicComponent` traits of src/components.rs): a `TypeId`,
a qualified `Name`, an inheritance flag, and an in-place merge rule on the
component's data (component data is modelled by `Nat`). -/
structure ComponentType where
  id : Nat
  name : Name
  inherited : Bool
  merge : Nat → Nat → Nat

/-- `AnyComponent` (src/any.rs): a boxed value of some concrete component
type.  The `Option<T>` box is always `Some` through the public API, so we keep
the payload directly. -/
structure AnyComponent where
  ty : ComponentType
  value : Nat

/-- `AnyComponent::merge_with` (src/any.rs:50-65): downcast `other` to `self`'s
wrapped concrete type and run that type's merge rule in place.  The downcast
compares runtime `TypeId`s; a mismatch is the `expect("incorrect type")` panic,
embedded as `none`. -/
def AnyComponent.mergeWith (self other : AnyComponent) : Option AnyComponent :=
  if other.ty.id = self.ty.id then
    some { self with value := self.ty.merge self.value other.value }
  else
    none

/-- `AnyComponent::inherited` (src/any.rs): the wrapped type's inheritance
flag. -/
def AnyComponent.inherited (c : AnyComponent) : Bool := c.ty.inherited

/-- `AnyComponent::name` (src/any.rs): the wrapped type's qualified name. -/
def AnyComponent.compName (c : AnyComponent) : Name := c.ty.name

/-- `Key` (src/object.rs:183-186): a name paired with the arena slot id of its
value. -/
structure Key where
  key : Name
  value_id : Nat
deriving DecidableEq

/-- `impl PartialOrd<Name> for Key` (src/object.rs:215-222): compare the
authority tokens' pointer identities first, and the local-name tokens'
identities only on a tie.  This is the one comparison the sorted store uses. -/
def Key.partialCmpName (self : Key) (other : Name) : Ordering :=
  match natCmp self.key.authority other.authority with
  | .eq => natCmp self.key.name other.name
  | not_equal => not_equal

/-- The same storage comparison, as a function of two `Name`s (`Key`'s
ordering never looks at `value_id`). -/
def storageCmp (a b : Name) : Ordering :=
  match natCmp a.authority b.authority with
  | .eq => natCmp a.name b.name
  | not_equal => not_equal

/-- `impl Ord for NameKey` (src/names.rs:341-352): "Prioritize comparing the
name" — local-name token identity first, authority identity only on a tie.
(`NameKey` wraps a borrowed or owned `Name`; both variants deref to the
`Name` compared here.)  Note this is a *different* order from
`Key.partialCmpName`, and `Object` does not use it. -/
def NameKey.cmp (a b : Name) : Ordering :=
  match natCmp a.name b.name with
  | .lt => .lt
  | .gt => .gt
  | .eq => natCmp a.authority b.authority

/-- Placeholder component used only as the `getD` default when indexing the
arena; well-formed objects never reach it. -/
def dfltComponent : AnyComponent := ⟨⟨0, ⟨0, 0⟩, false, fun s _ => s⟩, 0⟩

/-- Placeholder key used only as the `getD` default; never reached on
in-bounds indices. -/
def dfltKey : Key := ⟨⟨0, 0⟩, 0⟩

/-- `Object` (src/object.rs:15-18): the sorted store.  `values` is the slot
arena (`Lots<AnyComponent>`), `ordered_keys` the sorted array of keys. -/
structure Object where
  values : List AnyComponent
  ordered_keys : List Key

/-- `Object::new` (src/object.rs:27-32). -/
def Object.new : Object := ⟨[], []⟩

/-- The linear-scan phase of `Object::find_key` (src/object.rs:79-87): scan
the slice `ordered_keys[min..max]`, with `index` counting from `0` at the
start of the slice (this is the `enumerate` counter of the source, so the
`Err(index)` on `Ordering::Greater` is relative to the slice, while the
`Err(max)` at the end of the slice is an absolute position). -/
def linearScan (slice : List Key) (needle : Name) (index max : Nat) : Except Nat Key :=
  match slice with
  | [] => .error max
  | key :: rest =>
    match key.partialCmpName needle with
    | .lt => linearScan rest needle (index + 1) max
    | .eq => .ok key
    | .gt => .error index

/-- The loop of `Object::find_key` (src/object.rs:74-99): binary-search while
the window exceeds 16 entries, then hand the window to the linear scan.

The source's `loop` is embedded with a structural `fuel` argument so that the
function evaluates by kernel reduction.  Every binary-search step strictly
shrinks `max - min`, so any `fuel ≥ max - min` (the entry point passes the
array length) reproduces the source loop exactly; the `fuel = 0` fallback is
unreachable then, because `fuel ≥ max - min` is preserved by both recursive
calls and `fuel = 0` forces `delta = 0 ≤ 16`. -/
def findKeyLoop (keys : List Key) (needle : Name) :
    (fuel min max : Nat) → Except Nat Key
  | fuel, min, max =>
    let delta := max - min
    if delta ≤ 16 then
      linearScan ((keys.drop min).take delta) needle 0 max
    else
      let midpoint := min + delta / 2
      match fuel with
      | 0 => linearScan ((keys.drop min).take delta) needle 0 max
      | fuel + 1 =>
        match (keys.getD midpoint dfltKey).partialCmpName needle with
        | .lt => findKeyLoop keys needle fuel (midpoint + 1) max
        | .eq => .ok (keys.getD midpoint dfltKey)
        | .gt => findKeyLoop keys needle fuel min midpoint

/-- `Object::find_key` (src/object.rs:69-100). `Ok` is the matching key,
`Err` the index the source would report for insertion. -/
def Object.find_key (o : Object) (needle : Name) : Except Nat Key :=
  findKeyLoop o.ordered_keys needle o.ordered_keys.length 0 o.ordered_keys.length

/-- `Vec::insert(index, element)`: shift everything from `index` rightwards.
(The source only calls it with `index ≤ len`.) -/
def vecInsert (l : List α) (index : Nat) (a : α) : List α :=
  l.take index ++ a :: l.drop index

/-- `Object::insert` (src/object.rs:41-53): on an exact match replace the
value in the existing slot and return the displaced value; otherwise push the
value into the arena and splice the new key at the reported index. -/
def Object.insert (o : Object) (key : Name) (value : AnyComponent) :
    Object × Option AnyComponent :=
  match o.find_key key with
  | .ok existing =>
    ({ o with values := o.values.set existing.value_id value },
      some (o.values.getD existing.value_id dfltComponent))
  | .error insert_at =>
    let value_id := o.values.length
    ({ values := o.values ++ [value],
       ordered_keys := vecInsert o.ordered_keys insert_at ⟨key, value_id⟩ }, none)

/-- `Object::get` (src/object.rs:55-59). -/
def Object.get (o : Object) (key : Name) : Option AnyComponent :=
  match o.find_key key with
  | .ok k => some (o.values.getD k.value_id dfltComponent)
  | .error _ => none

/-- The drain loop after `Object::merge_with_filter`'s main loop
(src/object.rs:154-167): every remaining `other` entry that the filter
accepts is cloned, pushed into the arena, and its key appended. -/
def Object.drainOther (self : Object) (other : Object)
    (filter : AnyComponent → Bool) (other_index : Nat) : Object :=
  (other.ordered_keys.drop other_index).foldl
    (fun acc key =>
      let other_component := other.values.getD key.value_id dfltComponent
      if filter other_component then
        { values := acc.values ++ [other_component],
          ordered_keys := acc.ordered_keys ++ [⟨key.key, acc.values.length⟩] }
      else acc)
    self

/-- The main loop of `Object::merge_with_filter` (src/object.rs:115-152): a
two-pointer sorted merge-join.  `none` is the `merge_with` panic on a
concrete-type mismatch. -/
def Object.mergeLoop (self other : Object) (filter : AnyComponent → Bool)
    (self_index other_index : Nat) : Option Object :=
  if _h : self_index < self.ordered_keys.length ∧ other_index < other.ordered_keys.length then
    let self_key := self.ordered_keys.getD self_index dfltKey
    let other_key := other.ordered_keys.getD other_index dfltKey
    let other_component := other.values.getD other_key.value_id dfltComponent
    match self_key.partialCmpName other_key.key with
    | .lt =>
      -- Self has a key that other didn't.
      Object.mergeLoop self other filter (self_index + 1) other_index
    | .eq =>
      -- Both have the value, we might need to merge.
      if filter other_component then
        match (self.values.getD self_key.value_id dfltComponent).mergeWith other_component with
        | some merged =>
          Object.mergeLoop { self with values := self.values.set self_key.value_id merged }
            other filter (self_index + 1) (other_index + 1)
        | none => none
      else
        Object.mergeLoop self other filter (self_index + 1) (other_index + 1)
    | .gt =>
      -- Other has a value that self doesn't.
      if filter other_component then
        Object.mergeLoop
          { values := self.values ++ [other_component],
            ordered_keys :=
              vecInsert self.ordered_keys self_index ⟨other_key.key, self.values.length⟩ }
          other filter (self_index + 1) (other_index + 1)
      else
        Object.mergeLoop self other filter self_index (other_index + 1)
  else
    some (self.drainOther other filter other_index)
termination_by (other.ordered_keys.length - other_index) + (self.ordered_keys.length - self_index)
decreasing_by
  · omega
  · omega
  · omega
  · simp only [vecInsert, List.length_append, List.length_cons, List.length_take,
      List.length_drop]
    omega
  · omega

/-- `Object::merge_with_filter` (src/object.rs:110-168). -/
def Object.merge_with_filter (self other : Object) (filter : AnyComponent → Bool) :
    Option Object :=
  Object.mergeLoop self other filter 0 0

/-- The observable content of an `Object`: its keys in storage order, each
paired with the arena value its slot id resolves to. -/
def Object.toList (o : Object) : List (Name × AnyComponent) :=
  o.ordered_keys.map fun k => (k.key, o.values.getD k.value_id dfltComponent)

/-- Structural invariant of the arena (src/object.rs module doc and
`alot::Lots`): every slot id named by `ordered_keys` resolves to exactly one
live arena entry, and no two keys share a slot. -/
def Object.WF (o : Object) : Prop :=
  (∀ k ∈ o.ordered_keys, k.value_id < o.values.length) ∧
    o.ordered_keys.Pairwise fun a b => a.value_id ≠ b.value_id

/-- The sorted-store invariant: `ordered_keys` strictly increasing under the
storage comparison. -/
def Object.sortedKeys (o : Object) : Prop :=
  o.ordered_keys.Pairwise fun a b => storageCmp a.key b.key = .lt

/-- First-match association lookup, the observation used to state what a
store maps a `Name` to. -/
def lookupAssoc (l : List (Name × AnyComponent)) (n : Name) : Option AnyComponent :=
  (l.find? fun kv => decide (kv.1 = n)).map (·.2)

instance (o : Object) : Decidable o.sortedKeys := by
  unfold Object.sortedKeys; infer_instance

instance (o : Object) : Decidable o.WF := by
  unfold Object.WF; exact instDecidableAnd

/-!
## The `Style` facade (src/style.rs)

`Style` is a `HashMap<Name, AnyComponent>`.  A hash map is modelled as an
association list with pairwise-distinct names (`Style.nodupNames` below);
iteration order of the source map is unspecified, and every property stated
about styles is an order-independent, per-`Name` lookup property, so the
model fixes one concrete order (self's entries first, then the `other`-only
entries) without loss.
-/

/-- `Style` (src/style.rs:11-13). -/
abbrev Style := List (Name × AnyComponent)

/-- `Style::new` (src/style.rs:48-50) / `Style::with_capacity`
(src/style.rs:55-59): the empty map (capacity is not observable). -/
def Style.new : Style := []

/-- `HashMap::insert`: replace the value under an existing key, else add the
binding. -/
def hashMapInsert (s : Style) (n : Name) (c : AnyComponent) : Style :=
  if s.any fun kv => decide (kv.1 = n) then
    s.map fun kv => if kv.1 = n then (n, c) else kv
  else
    s ++ [(n, c)]

/-- `Style::push` (src/style.rs:85-88): wrap the component and insert it
under its own reported `Name`. -/
def Style.push (s : Style) (c : AnyComponent) : Style :=
  hashMapInsert s c.ty.name c

/-- The structural invariant of a `HashMap`: one binding per key. -/
def Style.nodupNames (s : Style) : Prop := (s.map Prod.fst).Nodup

/-- Map-level lookup, `self.components.get(name)`
(`Style::get_by_name`, src/style.rs:106-108). -/
def Style.get_by_name (s : Style) (n : Name) : Option AnyComponent := lookupAssoc s n

/-- The per-entry processing of `Style::merge_with_filter`
(src/style.rs:140-167) for the names present in `self`: when `other` also
holds the name and the filter accepts `other`'s component, merge in place
(`none` is the `merge_with` panic); otherwise keep `self`'s component
untouched. -/
def Style.mergeSelfRows (other : Style) (filter : AnyComponent → Bool) :
    List (Name × AnyComponent) → Option (List (Name × AnyComponent))
  | [] => some []
  | (n, sv) :: rest =>
    match lookupAssoc other n with
    | some ov =>
      if filter ov then
        match sv.mergeWith ov with
        | some merged => (Style.mergeSelfRows other filter rest).map ((n, merged) :: ·)
        | none => none
      else
        (Style.mergeSelfRows other filter rest).map ((n, sv) :: ·)
    | none => (Style.mergeSelfRows other filter rest).map ((n, sv) :: ·)

/-- `Style::merge_with_filter` (src/style.rs:140-167): for every name in the
union of the two key sets — a name on both sides is merged in place only if
the filter accepts `other`'s component; a `self`-only name is kept; an
`other`-only name is cloned in only if the filter accepts it. -/
def Style.merge_with_filter (self other : Style) (filter : AnyComponent → Bool) :
    Option Style :=
  (Style.mergeSelfRows other filter self).map fun merged =>
    merged ++ other.filter fun kv =>
      !(self.any fun kv' => decide (kv'.1 = kv.1)) && filter kv.2

/-- `Style::merged_with` (src/style.rs:121-127): the override merge; the
filter accepts unconditionally. -/
def Style.merged_with (self other : Style) : Option Style :=
  Style.merge_with_filter self other fun _ => true

/-- `Style::inherited_from` (src/style.rs:132-138): the inheritance merge;
the filter is `AnyComponent::inherited`. -/
def Style.inherited_from (self parent : Style) : Option Style :=
  Style.merge_with_filter self parent AnyComponent.inherited

/-- "Equal `Name` implies equal wrapped concrete type" across two stores:
every two components stored under the same `Name` on the two sides wrap the
same runtime type (`TypeId`).  This is the construction contract the spec
attaches to `Name` (each component type reports one unique `Name`). -/
def typeCoherent (a b : List (Name × AnyComponent)) : Prop :=
  ∀ kv ∈ a, ∀ kv' ∈ b, kv.1 = kv'.1 → kv'.2.ty.id = kv.2.ty.id

/-- The per-`Name` result of one `merge_with_filter` pass, used to state what
both the `Object` and the `Style` merge produce: on a shared name the merge
rule of `a`'s component runs exactly when the filter accepts `b`'s
component; an `a`-only name keeps its component; a `b`-only name is copied
exactly when accepted. -/
def mergePointwise (filter : AnyComponent → Bool)
    (a b : List (Name × AnyComponent)) (n : Name) : Option AnyComponent :=
  match lookupAssoc a n, lookupAssoc b n with
  | some sv, some ov =>
    some (if filter ov then { sv with value := sv.ty.merge sv.value ov.value } else sv)
  | some sv, none => some sv
  | none, some ov => if filter ov then some ov else none
  | none, none => none

/-!
## Identifier text, validation, interning, `Display`/`FromStr`
(src/names.rs, stylecs-shared/src/lib.rs)

This part models the text level.  Strings are `List Char`; the source's
byte-wise loop accepts a UTF-8 string exactly when every character is ASCII
alphanumeric or `_` (any byte of a non-ASCII character already fails the
ASCII test), so the character-level loop below accepts the same strings.
-/

/-- Rust `str`, at the character level. -/
abbrev Str := List Char

/-- One character of the allowed identifier alphabet: `a-z`, `A-Z`, `0-9`,
`_` (the byte test of stylecs-shared/src/lib.rs:8). -/
def allowedChar (c : Char) : Bool :=
  (('a' ≤ c && c ≤ 'z') || ('A' ≤ c && c ≤ 'Z') || ('0' ≤ c && c ≤ '9')) || c = '_'

/-- `InvalidIdentifier` (stylecs-shared/src/lib.rs:49). -/
inductive InvalidIdentifier where
  | mk
deriving DecidableEq

/-- `validate_identifier` (stylecs-shared/src/lib.rs:4-15): walk the string;
return `Err(InvalidIdentifier)` at the first disallowed character, `Ok(())`
when the end is reached (so the empty string is accepted, and the function
is total — it never panics). -/
def validate_identifier : Str → Except InvalidIdentifier Unit
  | [] => .ok ()
  | c :: rest =>
    if allowedChar c then validate_identifier rest
    else .error .mk

/-- First index of `s` in the pool, if interned already. -/
def poolIndexOf : List Str → Str → Option Nat
  | [], _ => none
  | t :: rest, s => if t = s then some 0 else (poolIndexOf rest s).map (· + 1)

/-- The global `StringPool` of src/names.rs:15, as the append-only list of
interned texts; a token is the index of its unique backing copy.  `get`
returns the existing token when the text was already interned, otherwise
appends the text and returns the fresh token (interner crate semantics the
source relies on). -/
def StringPool.get (pool : List Str) (s : Str) : List Str × Nat :=
  match poolIndexOf pool s with
  | some i => (pool, i)
  | none => (pool ++ [s], pool.length)

/-- `Identifier::new` (src/names.rs:36-39): validate, then intern.  The
returned token is the pool index of the (unique) backing string. -/
def Identifier.new (pool : List Str) (s : Str) :
    Except InvalidIdentifier (List Str × Nat) :=
  match validate_identifier s with
  | .ok _ => .ok (StringPool.get pool s)
  | .error e => .error e

namespace Text

/-- The private authority identifier `"_"` (src/names.rs:16). -/
def privateIdent : Str := ['_']

/-- `Name` at the text level (src/names.rs:102-115): the two identifiers'
texts.  Equality of interned identifiers is equality of their texts. -/
structure Name where
  authority : Str
  name : Str
deriving DecidableEq

/-- `impl Display for Name` (src/names.rs:161-169): write
`authority :: "::" :: name` unless the authority is the private `"_"`, in
which case write only the local name. -/
def Name.display (n : Name) : Str :=
  if n.authority = privateIdent then n.name
  else n.authority ++ ':' :: ':' :: n.name

/-- `str::split_once("::")`: split at the first occurrence of `"::"`,
returning the text before and after it, or `None` when the separator does
not occur. -/
def splitOnceSep : Str → Option (Str × Str)
  | [] => none
  | c :: rest =>
    if c = ':' ∧ rest.head? = some ':' then
      some ([], rest.tail)
    else
      (splitOnceSep rest).map fun p => (c :: p.1, p.2)

/-- `impl FromStr for Name` (src/names.rs:171-187): with a `"::"` the two
halves are validated as authority and local name; without one the whole
input is the local name and the authority is `Identifier::private()`. -/
def Name.from_str (s : Str) : Except InvalidIdentifier Name :=
  match splitOnceSep s with
  | some (authority, name) =>
    match validate_identifier authority, validate_identifier name with
    | .ok _, .ok _ => .ok ⟨authority, name⟩
    | .error e, _ => .error e
    | _, .error e => .error e
  | none =>
    match validate_identifier s with
    | .ok _ => .ok ⟨privateIdent, s⟩
    | .error e => .error e

end Text

/-!
## Basic facts about the storage comparison
-/

theorem natCmp_lt_iff {a b : Nat} : natCmp a b = .lt ↔ a < b := Nat.compare_eq_lt

theorem natCmp_eq_iff {a b : Nat} : natCmp a b = .eq ↔ a = b := Nat.compare_eq_eq

theorem natCmp_gt_iff {a b : Nat} : natCmp a b = .gt ↔ b < a := Nat.compare_eq_gt

theorem storageCmp_eq_iff {a b : Name} : storageCmp a b = .eq ↔ a = b := by
  obtain ⟨aa, an⟩ := a
  obtain ⟨ba, bn⟩ := b
  unfold storageCmp
  rcases ha : natCmp aa ba <;>
    simp_all [natCmp_lt_iff, natCmp_eq_iff, natCmp_gt_iff, Name.mk.injEq] <;> omega

theorem storageCmp_lt_iff {a b : Name} :
    storageCmp a b = .lt ↔
      a.authority < b.authority ∨ (a.authority = b.authority ∧ a.name < b.name) := by
  unfold storageCmp
  rcases ha : natCmp a.authority b.authority <;>
    simp_all [natCmp_lt_iff, natCmp_eq_iff, natCmp_gt_iff]
  omega

theorem storageCmp_trans {a b c : Name} (h₁ : storageCmp a b = .lt)
    (h₂ : storageCmp b c = .lt) : storageCmp a c = .lt := by
  rw [storageCmp_lt_iff] at h₁ h₂ ⊢
  omega

theorem storageCmp_irrefl (a : Name) : storageCmp a a ≠ .lt := by
  intro h
  rw [storageCmp_lt_iff] at h
  omega

theorem key_partialCmpName_eq_storageCmp (k : Key) (n : Name) :
    k.partialCmpName n = storageCmp k.key n := rfl

theorem nameKeyCmp_lt_iff {a b : Name} :
    NameKey.cmp a b = .lt ↔
      a.name < b.name ∨ (a.name = b.name ∧ a.authority < b.authority) := by
  unfold NameKey.cmp
  rcases ha : natCmp a.name b.name <;>
    simp_all [natCmp_lt_iff, natCmp_eq_iff, natCmp_gt_iff]
  omega

/-- C3, the claim as frozen, is false at a concrete input: take two interned
tokens with pointer identities `0 < 1`, the name `a` with authority token `0`
and local token `1`, and the name `b` with authority token `1` and local
token `0`.  A comparison that looked at the local tokens first would answer
`gt` for `a` against `b` — `NameKey`'s order (src/names.rs:341-352), which is
exactly the claimed "local first, authority on a tie" order, does answer
`gt` — but the comparison the sorted store actually uses,
`<Key as PartialOrd<Name>>::partial_cmp` (src/object.rs:215-222), answers
`lt`, because it compares the authority tokens first. -/
theorem c3_counterexample :
    Key.partialCmpName ⟨⟨0, 1⟩, 0⟩ ⟨1, 0⟩ = .lt ∧
      NameKey.cmp ⟨0, 1⟩ ⟨1, 0⟩ = .gt := by
  constructor <;> rfl

/-- C3, amended: the storage-order comparison used inside the sorted store
(`Key` against `Name`, src/object.rs:215-222) compares the *authority*
tokens' identities first and the local-name tokens' identities only when the
authorities are identical — the lexicographic order on (authority identity,
local identity); it never compares the underlying text.  The "local token
first, authority on a tie" order described by the claim is `NameKey`'s
`Ord` (src/names.rs:341-352), which `Object` does not use. -/
theorem c3_storage_order_amended (k : Key) (n : Name) :
    (k.partialCmpName n = .lt ↔
      k.key.authority < n.authority ∨
        (k.key.authority = n.authority ∧ k.key.name < n.name)) ∧
    (k.partialCmpName n = .eq ↔ k.key = n) ∧
    (NameKey.cmp k.key n = .lt ↔
      k.key.name < n.name ∨ (k.key.name = n.name ∧ k.key.authority < n.authority)) := by
  refine ⟨?_, ?_, ?_⟩
  · rw [key_partialCmpName_eq_storageCmp, storageCmp_lt_iff]
  · rw [key_partialCmpName_eq_storageCmp, storageCmp_eq_iff]
  · exact nameKeyCmp_lt_iff

/-!
## C8 — identifier validation
-/

theorem validate_ok_iff (s : Str) :
    validate_identifier s = .ok () ↔ s.all allowedChar := by
  induction s with
  | nil => simp [validate_identifier]
  | cons c rest ih =>
    by_cases h : allowedChar c <;> simp [validate_identifier, h, ih]

theorem validate_error_iff (s : Str) :
    validate_identifier s = .error .mk ↔ ∃ c ∈ s, ¬ allowedChar c := by
  induction s with
  | nil => simp [validate_identifier]
  | cons c rest ih =>
    by_cases h : allowedChar c <;> simp [validate_identifier, h, ih]

theorem identifier_new_error_iff (pool : List Str) (s : Str) :
    Identifier.new pool s = .error .mk ↔ validate_identifier s = .error .mk := by
  unfold Identifier.new
  rcases hv : validate_identifier s with e | u
  · cases e
    simp
  · simp

/-- C8: `validate_identifier` (stylecs-shared/src/lib.rs:4-15) — and with it
`Identifier::validate` and `Identifier::new` (src/names.rs:36-55) — fails
with `InvalidIdentifier` exactly when the input contains a character outside
`a-z`, `A-Z`, `0-9`, `_`; every string over that alphabet (the empty string
included) is accepted.  The functions are total (never panic): the result is
always exactly one of `Ok`/`Err`, as the two complementary iffs state. -/
theorem c8_identifier_validation (pool : List Str) (s : Str) :
    (validate_identifier s = .error .mk ↔ ∃ c ∈ s, ¬ allowedChar c) ∧
    (validate_identifier s = .ok () ↔ ∀ c ∈ s, allowedChar c) ∧
    (Identifier.new pool s = .error .mk ↔ ∃ c ∈ s, ¬ allowedChar c) ∧
    ((∃ t, Identifier.new pool s = .ok t) ↔ ∀ c ∈ s, allowedChar c) := by
  have hok := validate_ok_iff s
  have herr := validate_error_iff s
  rw [List.all_eq_true] at hok
  refine ⟨herr, hok, by rw [identifier_new_error_iff, herr], ?_⟩
  rw [← hok]
  unfold Identifier.new
  rcases hv : validate_identifier s with e | u
  · cases e
    constructor
    · rintro ⟨t, ht⟩
      cases ht
    · intro h
      cases h
  · simp

/-!
## C1, C2 — the relative-index slip in `find_key`

`Object::find_key` returns `Err(index)` from its linear scan
(src/object.rs:83), where `index` is the `enumerate` counter of the slice
`ordered_keys[min..max]` — an offset *relative to `min`* — while the caller
(`Object::insert`, src/object.rs:47-51) and the end-of-slice `Err(max)`
treat the reported position as absolute.  Whenever a binary-search step has
moved `min` past `0` (possible as soon as the store holds more than 16
entries), the reported insertion index is too small by `min`, and `insert`
splices the new key at the wrong place, breaking the sorted invariant that
the module documentation (src/object.rs:8-14) and every later search rely
on.
-/

/-- 18 sorted keys: authority token `0`, local tokens `0, 2, 4, …, 34`,
slot ids `0…17`. -/
def bigKeys : List Key := (List.range 18).map fun i => ⟨⟨0, 2 * i⟩, i⟩

/-- A well-formed, sorted `Object` holding `bigKeys`. -/
def bigObject : Object := ⟨bigKeys.map fun _ => dfltComponent, bigKeys⟩

/-- C1's failing input, evaluated: `bigObject` is sorted (and well-formed),
and eleven of its keys compare less than the needle `⟨0, 21⟩`, so the unique
sort-preserving insertion index is `11` — but `find_key` reports `Err(1)`:
the first binary step narrows the window to `[10, 18)` and the linear scan
then returns its slice-relative counter.  (The claim's description of the
hybrid search control flow is accurate; the reported insertion index is
not.) -/
theorem c1_find_key_reports_relative_index :
    bigObject.sortedKeys ∧ bigObject.WF ∧
      (bigObject.ordered_keys.filter
        fun k => decide (k.partialCmpName ⟨0, 21⟩ = .lt)).length = 11 ∧
      bigObject.find_key ⟨0, 21⟩ = .error 1 := by
  refine ⟨by decide, by decide, rfl, rfl⟩

/-- The names inserted for C2: `⟨0,0⟩, ⟨0,2⟩, …, ⟨0,34⟩` in ascending
storage order, then `⟨0,21⟩`. -/
def insertSeq : List Name := ((List.range 18).map fun i => ⟨0, 2 * i⟩) ++ [⟨0, 21⟩]

/-- The object built by the 19 `Object::insert` calls of `insertSeq`,
starting from `Object::new`. -/
def c2Result : Object :=
  insertSeq.foldl (fun o n => (o.insert n dfltComponent).1) Object.new

/-- C2's failing sequence, evaluated: after inserting 18 names in ascending
order (which does leave the store sorted) and then `⟨0,21⟩`, the final
`insert` splices the new key at index `1` — the relative index reported by
`find_key` — instead of index `11`, so `ordered_keys` ends up in the order
`0, 21, 2, 4, …` and the strictly-increasing invariant is violated. -/
theorem c2_insert_breaks_sorted_invariant :
    c2Result.ordered_keys.map (fun k => k.key.name) =
      [0, 21, 2, 4, 6, 8, 10, 12, 14, 16, 18, 20, 22, 24, 26, 28, 30, 32, 34] ∧
      ¬ c2Result.sortedKeys := by
  exact ⟨by decide, by decide⟩

/-!
## C9 — interning is idempotent and canonical
-/

theorem poolIndexOf_none_iff {pool : List Str} {s : Str} :
    poolIndexOf pool s = none ↔ s ∉ pool := by
  induction pool with
  | nil => simp [poolIndexOf]
  | cons t rest ih =>
    by_cases h : t = s
    · simp [poolIndexOf, h]
    · simp only [poolIndexOf, h, if_false, List.mem_cons, not_or]
      rw [Option.map_eq_none', ih]
      constructor
      · exact fun hn => ⟨fun he => h he.symm, hn⟩
      · exact fun hn => hn.2

theorem poolIndexOf_some {pool : List Str} {s : Str} {i : Nat}
    (h : poolIndexOf pool s = some i) : i < pool.length ∧ pool.getD i [] = s := by
  induction pool generalizing i with
  | nil => simp [poolIndexOf] at h
  | cons t rest ih =>
    by_cases ht : t = s
    · simp [poolIndexOf, ht] at h
      subst ht
      simp [← h]
    · simp only [poolIndexOf, ht, if_false, Option.map_eq_some'] at h
      obtain ⟨j, hj, rfl⟩ := h
      obtain ⟨h1, h2⟩ := ih hj
      constructor
      · simp
        omega
      · simpa using h2

theorem poolIndexOf_append_self {pool : List Str} {s : Str} (h : s ∉ pool) :
    poolIndexOf (pool ++ [s]) s = some pool.length := by
  induction pool with
  | nil => simp [poolIndexOf]
  | cons t rest ih =>
    simp only [List.mem_cons, not_or] at h
    have ht : ¬ t = s := fun he => h.1 he.symm
    simp [poolIndexOf, ht, ih h.2]

/-- C9: interning is idempotent and canonical.  For every valid text `s` and
any pool state, `Identifier::new` succeeds and yields a token `i1` in pool
`p1`; creating a second `Identifier` from `s` leaves the pool untouched and
yields the *same* token, which designates the same unique backing string
(`p1[i1] = s`) — so two identifiers built from equal text are
identity-equal, and their equality/ordering never needs the text. -/
theorem c9_interning_idempotent (pool : List Str) (s : Str)
    (h : ∀ c ∈ s, allowedChar c) :
    ∃ p1 i1, Identifier.new pool s = .ok (p1, i1) ∧
      Identifier.new p1 s = .ok (p1, i1) ∧
      i1 < p1.length ∧ p1.getD i1 [] = s := by
  have hv : validate_identifier s = .ok () := by
    rw [validate_ok_iff, List.all_eq_true]
    exact h
  unfold Identifier.new
  rw [hv]
  unfold StringPool.get
  rcases hfind : poolIndexOf pool s with _ | i
  · refine ⟨pool ++ [s], pool.length, rfl, ?_, ?_, ?_⟩
    · rw [poolIndexOf_append_self (poolIndexOf_none_iff.mp hfind)]
    · simp
    · simp
  · obtain ⟨hlt, hget⟩ := poolIndexOf_some hfind
    exact ⟨pool, i, rfl, by rw [hfind], hlt, hget⟩

/-- Witness for C9 at a concrete input: interning `"a"` into the empty pool
twice. -/
theorem c9_interning_idempotent_witness :
    (∀ c ∈ (['a'] : Str), allowedChar c) ∧
      ∃ p1 i1, Identifier.new [] ['a'] = .ok (p1, i1) ∧
        Identifier.new p1 ['a'] = .ok (p1, i1) ∧
        i1 < p1.length ∧ p1.getD i1 [] = ['a'] :=
  ⟨by decide, c9_interning_idempotent [] ['a'] (by decide)⟩

/-!
## C10 — `Display`/`FromStr` round trip for `Name`
-/

theorem splitOnceSep_no_colon {s : Str} (h : ':' ∉ s) : Text.splitOnceSep s = none := by
  induction s with
  | nil => rfl
  | cons c rest ih =>
    simp only [List.mem_cons, not_or] at h
    rw [Text.splitOnceSep, if_neg (fun hc => h.1 hc.1.symm), ih h.2]
    rfl

theorem splitOnceSep_at_sep {auth rest : Str} (h : ':' ∉ auth) :
    Text.splitOnceSep (auth ++ ':' :: ':' :: rest) = some (auth, rest) := by
  induction auth with
  | nil =>
    show Text.splitOnceSep (':' :: ':' :: rest) = some ([], rest)
    rw [Text.splitOnceSep, if_pos ⟨rfl, rfl⟩]
    rfl
  | cons c auth' ih =>
    simp only [List.mem_cons, not_or] at h
    rw [List.cons_append, Text.splitOnceSep, if_neg (fun hc => h.1 hc.1.symm), ih h.2]
    rfl

theorem no_colon_of_valid {s : Str} (h : ∀ c ∈ s, allowedChar c) : ':' ∉ s := by
  intro hmem
  have := h ':' hmem
  exact absurd this (by decide)

/-- C10, the claim as frozen, is false at a concrete input: the claim's
"`FromStr` assigns the private authority exactly when the input contains no
`::`" fails for the input `"_::x"`, which contains `"::"` and still parses
to a `Name` whose authority is the private identifier `"_"` (the text before
the separator is `"_"`, and `Identifier::new("_")` is the same interned
token as `Identifier::private()`). -/
theorem c10_counterexample :
    Text.Name.from_str ['_', ':', ':', 'x'] = .ok ⟨Text.privateIdent, ['x']⟩ ∧
      (Text.splitOnceSep ['_', ':', ':', 'x']).isSome = true :=
  ⟨rfl, rfl⟩

/-- C10, amended: every `Name` (two valid identifier texts) survives the
`Display`/`FromStr` round trip; `Display` omits the authority and the `::`
separator exactly when the authority is the private identifier `"_"`; and
`FromStr` assigns the private authority whenever the input contains no
`"::"` — when the input does contain one, the authority is the text before
the first `"::"`, which can itself be the private `"_"` (so "no separator"
is sufficient, but not necessary, for the parsed authority to be private). -/
theorem c10_display_from_str_amended (n : Text.Name)
    (ha : ∀ c ∈ n.authority, allowedChar c) (hn : ∀ c ∈ n.name, allowedChar c) :
    Text.Name.from_str n.display = .ok n ∧
    (n.display = n.name ↔ n.authority = Text.privateIdent) ∧
    (∀ s : Str, Text.splitOnceSep s = none → ∀ m, Text.Name.from_str s = .ok m →
      m.authority = Text.privateIdent) ∧
    (∀ (s : Str) (p : Str × Str), Text.splitOnceSep s = some p →
      ∀ m, Text.Name.from_str s = .ok m → m.authority = p.1 ∧ m.name = p.2) := by
  have hvn : validate_identifier n.name = .ok () := by
    rw [validate_ok_iff, List.all_eq_true]
    exact hn
  have hva : validate_identifier n.authority = .ok () := by
    rw [validate_ok_iff, List.all_eq_true]
    exact ha
  refine ⟨?_, ?_, ?_, ?_⟩
  · by_cases hp : n.authority = Text.privateIdent
    · rw [Text.Name.display, if_pos hp, Text.Name.from_str,
        splitOnceSep_no_colon (no_colon_of_valid hn)]
      simp only [hvn]
      rw [← hp]
    · rw [Text.Name.display, if_neg hp, Text.Name.from_str,
        splitOnceSep_at_sep (no_colon_of_valid ha)]
      simp only [hva, hvn]
  · constructor
    · intro hd
      by_contra hp
      rw [Text.Name.display, if_neg hp] at hd
      have := congrArg List.length hd
      simp at this
      omega
    · intro hp
      rw [Text.Name.display, if_pos hp]
  · intro s hsplit m hm
    rw [Text.Name.from_str, hsplit] at hm
    rcases hv : validate_identifier s with e | u <;> rw [hv] at hm
    · cases hm
    · cases hm
      rfl
  · intro s p hsplit m hm
    obtain ⟨a, b⟩ := p
    rw [Text.Name.from_str, hsplit] at hm
    rcases hv1 : validate_identifier a with e | u <;>
      rcases hv2 : validate_identifier b with e2 | u2 <;>
      simp only [hv1, hv2] at hm <;> cases hm
    exact ⟨rfl, rfl⟩

/-- Witness for C10's amended theorem at the concrete name
`authority = "ab"`, `name = "cd"`. -/
theorem c10_display_from_str_amended_witness :
    (∀ c ∈ (['a', 'b'] : Str), allowedChar c) ∧
      Text.Name.from_str (Text.Name.display ⟨['a', 'b'], ['c', 'd']⟩) =
        .ok ⟨['a', 'b'], ['c', 'd']⟩ :=
  ⟨by decide,
    (c10_display_from_str_amended ⟨['a', 'b'], ['c', 'd']⟩ (by decide) (by decide)).1⟩

/-!
## Lookup lemmas for association lists
-/

theorem lookupAssoc_nil (n : Name) : lookupAssoc [] n = none := rfl

theorem lookupAssoc_cons (a : Name) (v : AnyComponent) (l : List (Name × AnyComponent))
    (n : Name) :
    lookupAssoc ((a, v) :: l) n = if a = n then some v else lookupAssoc l n := by
  unfold lookupAssoc
  rcases h : decide (a = n) with _ | _
  · rw [List.find?_cons]
    simp only [h]
    rw [if_neg (by simpa using h)]
  · rw [List.find?_cons]
    simp only [h]
    rw [if_pos (by simpa using h)]
    rfl

theorem lookupAssoc_append (l1 l2 : List (Name × AnyComponent)) (n : Name) :
    lookupAssoc (l1 ++ l2) n = (lookupAssoc l1 n).or (lookupAssoc l2 n) := by
  unfold lookupAssoc
  rw [List.find?_append]
  rcases List.find? _ l1 <;> simp

theorem lookupAssoc_some_mem {l : List (Name × AnyComponent)} {n : Name}
    {v : AnyComponent} (h : lookupAssoc l n = some v) : (n, v) ∈ l := by
  induction l with
  | nil => cases h
  | cons kv rest ih =>
    obtain ⟨a, w⟩ := kv
    rw [lookupAssoc_cons] at h
    by_cases ha : a = n
    · rw [if_pos ha] at h
      cases h
      subst ha
      exact List.mem_cons_self _ _
    · rw [if_neg ha] at h
      exact List.mem_cons_of_mem _ (ih h)

theorem lookupAssoc_none_of_not_mem {l : List (Name × AnyComponent)} {n : Name}
    (h : ∀ kv ∈ l, kv.1 ≠ n) : lookupAssoc l n = none := by
  induction l with
  | nil => rfl
  | cons kv rest ih =>
    obtain ⟨a, w⟩ := kv
    rw [lookupAssoc_cons, if_neg (h (a, w) (List.mem_cons_self _ _)),
      ih fun kv hkv => h kv (List.mem_cons_of_mem _ hkv)]

theorem anyName_eq_isSome (l : List (Name × AnyComponent)) (n : Name) :
    (l.any fun kv => decide (kv.1 = n)) = (lookupAssoc l n).isSome := by
  induction l with
  | nil => rfl
  | cons kv rest ih =>
    obtain ⟨a, w⟩ := kv
    rw [List.any_cons, lookupAssoc_cons]
    by_cases ha : a = n
    · simp [ha]
    · simp only [ha, if_false, decide_eq_true_eq]
      simpa [ha] using ih

theorem lookupAssoc_filter {l : List (Name × AnyComponent)}
    (hnd : (l.map Prod.fst).Nodup) (g : Name × AnyComponent → Bool) (n : Name) :
    lookupAssoc (l.filter g) n =
      match lookupAssoc l n with
      | some v => if g (n, v) then some v else none
      | none => none := by
  induction l with
  | nil => rfl
  | cons kv rest ih =>
    obtain ⟨a, w⟩ := kv
    rw [List.map_cons, List.nodup_cons] at hnd
    obtain ⟨hna, hnd⟩ := hnd
    by_cases ha : a = n
    · subst ha
      have hrest : lookupAssoc rest a = none := by
        apply lookupAssoc_none_of_not_mem
        intro kv hkv he
        have hm := List.mem_map_of_mem Prod.fst hkv
        rw [he] at hm
        exact hna hm
      rcases hg : g (a, w)
      · rw [List.filter_cons_of_neg (by simp [hg]), ih hnd, hrest,
          lookupAssoc_cons, if_pos rfl]
        simp [hg]
      · rw [List.filter_cons_of_pos (by simp [hg]), lookupAssoc_cons, if_pos rfl,
          lookupAssoc_cons, if_pos rfl]
        simp [hg]
    · rcases hg : g (a, w)
      · rw [List.filter_cons_of_neg (by simp [hg]), lookupAssoc_cons, if_neg ha, ih hnd]
      · rw [List.filter_cons_of_pos (by simp [hg]), lookupAssoc_cons, if_neg ha,
          lookupAssoc_cons, if_neg ha, ih hnd]

/-!
## The per-`Name` semantics of `Style::merge_with_filter`
-/

theorem typeCoherent_cons {kv : Name × AnyComponent} {a b : List (Name × AnyComponent)}
    (h : typeCoherent (kv :: a) b) : typeCoherent a b :=
  fun kv' hkv' => h kv' (List.mem_cons_of_mem _ hkv')

theorem mergeSelfRows_spec (other : Style) (f : AnyComponent → Bool) :
    ∀ self : Style, typeCoherent self other →
      ∃ m, Style.mergeSelfRows other f self = some m ∧
        ∀ n, lookupAssoc m n =
          (lookupAssoc self n).map fun sv =>
            match lookupAssoc other n with
            | some ov =>
              if f ov then { sv with value := sv.ty.merge sv.value ov.value } else sv
            | none => sv := by
  intro self
  induction self with
  | nil => exact fun _ => ⟨[], rfl, fun n => rfl⟩
  | cons kv rest ih =>
    intro hco
    obtain ⟨a, sv⟩ := kv
    obtain ⟨m', hm', hlook⟩ := ih (typeCoherent_cons hco)
    rcases ho : lookupAssoc other a with _ | ov
    · refine ⟨(a, sv) :: m', ?_, ?_⟩
      · rw [Style.mergeSelfRows, ho, hm']
        rfl
      · intro n
        rw [lookupAssoc_cons, lookupAssoc_cons]
        by_cases ha : a = n
        · subst ha
          rw [if_pos rfl, if_pos rfl, ho]
          rfl
        · rw [if_neg ha, if_neg ha, hlook n]
    · rcases hf : f ov
      · refine ⟨(a, sv) :: m', ?_, ?_⟩
        · simp [Style.mergeSelfRows, ho, hf, hm']
        · intro n
          rw [lookupAssoc_cons, lookupAssoc_cons]
          by_cases ha : a = n
          · subst ha
            rw [if_pos rfl, if_pos rfl, ho]
            simp [hf]
          · rw [if_neg ha, if_neg ha, hlook n]
      · have hid : ov.ty.id = sv.ty.id :=
          hco (a, sv) (List.mem_cons_self _ _) (a, ov) (lookupAssoc_some_mem ho) rfl
        have hmerge : sv.mergeWith ov =
            some { sv with value := sv.ty.merge sv.value ov.value } := by
          rw [AnyComponent.mergeWith, if_pos hid]
        refine ⟨(a, { sv with value := sv.ty.merge sv.value ov.value }) :: m', ?_, ?_⟩
        · simp [Style.mergeSelfRows, ho, hf, hmerge, hm']
        · intro n
          rw [lookupAssoc_cons, lookupAssoc_cons]
          by_cases ha : a = n
          · subst ha
            rw [if_pos rfl, if_pos rfl, ho]
            simp [hf]
          · rw [if_neg ha, if_neg ha, hlook n]

theorem style_merge_with_filter_spec (a b : Style) (f : AnyComponent → Bool)
    (hndb : b.nodupNames) (hco : typeCoherent a b) :
    ∃ r, Style.merge_with_filter a b f = some r ∧
      ∀ n, lookupAssoc r n = mergePointwise f a b n := by
  obtain ⟨m, hm, hlook⟩ := mergeSelfRows_spec b f a hco
  refine ⟨m ++ b.filter fun kv => !(a.any fun kv' => decide (kv'.1 = kv.1)) && f kv.2,
    by rw [Style.merge_with_filter, hm]; rfl, ?_⟩
  intro n
  rw [lookupAssoc_append, hlook n, lookupAssoc_filter hndb, mergePointwise]
  rcases hs : lookupAssoc a n with _ | sv <;>
    rcases hb : lookupAssoc b n with _ | ov <;>
    simp only [Option.map_none', Option.map_some', Option.or] <;>
    simp [anyName_eq_isSome, hs, hb]

instance (a b : List (Name × AnyComponent)) : Decidable (typeCoherent a b) := by
  unfold typeCoherent
  infer_instance

instance (s : Style) : Decidable s.nodupNames := by
  unfold Style.nodupNames
  infer_instance

/-!
## C5 — reachability of the `merge_with` type-mismatch panic
-/

/-- A concrete component type: `TypeId` 0, name `⟨0,5⟩`, not inheritable,
default no-op merge. -/
def colT1 : ComponentType := ⟨0, ⟨0, 5⟩, false, fun s _ => s⟩

/-- A *different* concrete component type (`TypeId` 1) that reports the same
`Name` `⟨0,5⟩` — allowed by the safe public API, since `DynamicComponent`
(src/components.rs) is a safe public trait whose `name()` the implementor
chooses freely. -/
def colT2 : ComponentType := ⟨1, ⟨0, 5⟩, false, fun s _ => s⟩

/-- C5, the claim as frozen, is false at a concrete input: two styles built
only from `Style::new` and `Style::push`, each internally consistent, whose
single components wrap *different* concrete types under the *same* `Name`.
`merged_with` then calls `AnyComponent::merge_with` on the two values and the
downcast of the peer fails — the panic is reached (`none`).  Equal `Name`
does not structurally imply equal wrapped concrete type. -/
theorem c5_counterexample :
    Style.merged_with (Style.push Style.new ⟨colT1, 1⟩)
      (Style.push Style.new ⟨colT2, 2⟩) = none := rfl

/-- C5, amended: the type-mismatch panic inside `AnyComponent::merge_with` is
unreachable *provided* equal stored `Name` implies equal wrapped concrete
type across the two stores (`typeCoherent` — the construction contract that
each component type reports its own unique `Name`, which the safe API cannot
itself enforce): store-level merges only invoke `merge_with` on the two
values stored under the same `Name`, so under that contract every downcast
succeeds and `merge_with_filter`, `merged_with` and `inherited_from` all
return a result. -/
theorem c5_no_panic_amended (a b : Style) (f : AnyComponent → Bool)
    (hco : typeCoherent a b) :
    (∃ r, Style.merge_with_filter a b f = some r) ∧
      (∃ r, Style.merged_with a b = some r) ∧
      (∃ r, Style.inherited_from a b = some r) := by
  have h : ∀ g : AnyComponent → Bool, ∃ r, Style.merge_with_filter a b g = some r := by
    intro g
    obtain ⟨m, hm, _⟩ := mergeSelfRows_spec b g a hco
    exact ⟨_, by rw [Style.merge_with_filter, hm]; rfl⟩
  exact ⟨h f, h _, h _⟩

/-- Witness for C5's amended theorem: two concrete styles that do satisfy
the contract (both store `colT1` under its name). -/
theorem c5_no_panic_amended_witness :
    typeCoherent (Style.push Style.new ⟨colT1, 1⟩) (Style.push Style.new ⟨colT1, 2⟩) ∧
      ∃ r, Style.merged_with (Style.push Style.new ⟨colT1, 1⟩)
        (Style.push Style.new ⟨colT1, 2⟩) = some r :=
  ⟨by decide,
    (c5_no_panic_amended (Style.push Style.new ⟨colT1, 1⟩)
      (Style.push Style.new ⟨colT1, 2⟩) (fun _ => true) (by decide)).2.1⟩

/-!
## C6 — `inherited_from`
-/

/-- The inheritable concrete component `F` of the claim's scenario. -/
def fontT : ComponentType := ⟨10, ⟨0, 1⟩, true, fun s _ => s⟩

/-- The non-inheritable concrete component `P` of the claim's scenario. -/
def padT : ComponentType := ⟨11, ⟨0, 2⟩, false, fun s _ => s⟩

/-- C6: `Style::inherited_from` copies a `Name` absent from `self` out of
`parent` exactly when `parent`'s value reports `inherited() == true`; a
`Name` on both sides is merged only when `parent`'s copy is inheritable and
otherwise `self`'s component is returned *unchanged* — no merge call occurs,
which the statement captures by holding for arbitrary merge rules inside the
stored components.  (`parent.nodupNames` is the hash-map structure of the
store; `typeCoherent` is the "equal Name ⇒ equal concrete type" construction
contract of the data model — see C5 for its necessity.)  In particular, for
a parent holding inheritable `F = 12` and non-inheritable `P`,
`Style::new().inherited_from(&parent)` contains `F = 12` and not `P`. -/
theorem c6_inherited_from (s p : Style) (hndp : p.nodupNames)
    (hco : typeCoherent s p) :
    (∃ r, Style.inherited_from s p = some r ∧
      ∀ n, lookupAssoc r n = mergePointwise AnyComponent.inherited s p n) ∧
    (∃ r, Style.inherited_from Style.new
        (Style.push (Style.push Style.new ⟨fontT, 12⟩) ⟨padT, 0⟩) = some r ∧
      lookupAssoc r ⟨0, 1⟩ = some ⟨fontT, 12⟩ ∧ lookupAssoc r ⟨0, 2⟩ = none) := by
  constructor
  · exact style_merge_with_filter_spec s p AnyComponent.inherited hndp hco
  · exact ⟨[(⟨0, 1⟩, ⟨fontT, 12⟩)], rfl, rfl, rfl⟩

/-- Witness for C6 at a concrete input: `self` holds `F = 7`, the parent
holds `F = 12` (inheritable) and `P = 3` (not inheritable). -/
theorem c6_inherited_from_witness :
    (Style.push (Style.push Style.new ⟨fontT, 12⟩) ⟨padT, 3⟩).nodupNames ∧
      typeCoherent (Style.push Style.new ⟨fontT, 7⟩)
        (Style.push (Style.push Style.new ⟨fontT, 12⟩) ⟨padT, 3⟩) ∧
      ∃ r, Style.inherited_from (Style.push Style.new ⟨fontT, 7⟩)
          (Style.push (Style.push Style.new ⟨fontT, 12⟩) ⟨padT, 3⟩) = some r ∧
        ∀ n, lookupAssoc r n = mergePointwise AnyComponent.inherited
          (Style.push Style.new ⟨fontT, 7⟩)
          (Style.push (Style.push Style.new ⟨fontT, 12⟩) ⟨padT, 3⟩) n :=
  ⟨by decide, by decide,
    (c6_inherited_from (Style.push Style.new ⟨fontT, 7⟩)
      (Style.push (Style.push Style.new ⟨fontT, 12⟩) ⟨padT, 3⟩)
      (by decide) (by decide)).1⟩

/-!
## C7 — `merged_with` with the default no-op merge rule
-/

/-- The default merge rule of `StyleComponent::merge`
(src/components.rs:57-60): do nothing, `self` wins. -/
def noopMerge : Nat → Nat → Nat := fun s _ => s

/-- Concrete component `X` of the claim's scenario. -/
def xT : ComponentType := ⟨20, ⟨0, 3⟩, false, noopMerge⟩

/-- Concrete component `Y` of the claim's scenario. -/
def yT : ComponentType := ⟨21, ⟨0, 4⟩, false, noopMerge⟩

/-- C7: when every stored component uses the default no-op merge rule,
`a.merged_with(&b)` is left-biased and total — for every `Name`, the result
holds `a`'s component whenever `a` holds that name, and `b`'s component
whenever only `b` holds it (`Option.or`).  (`b.nodupNames` is the hash-map
structure; `typeCoherent` is the data model's "equal Name ⇒ equal concrete
type" contract — see C5.)  In particular, for `a` holding `X = 1` and `b`
holding `X = 2, Y = 5`, the result holds `X = 1` and `Y = 5`. -/
theorem c7_merged_with (a b : Style)
    (hnoa : ∀ kv ∈ a, kv.2.ty.merge = noopMerge)
    (hnob : ∀ kv ∈ b, kv.2.ty.merge = noopMerge)
    (hndb : b.nodupNames) (hco : typeCoherent a b) :
    (∃ r, Style.merged_with a b = some r ∧
      ∀ n, lookupAssoc r n = (lookupAssoc a n).or (lookupAssoc b n)) ∧
    (∃ r, Style.merged_with (Style.push Style.new ⟨xT, 1⟩)
        (Style.push (Style.push Style.new ⟨xT, 2⟩) ⟨yT, 5⟩) = some r ∧
      lookupAssoc r ⟨0, 3⟩ = some ⟨xT, 1⟩ ∧ lookupAssoc r ⟨0, 4⟩ = some ⟨yT, 5⟩) := by
  constructor
  · obtain ⟨r, hr, hlook⟩ :=
      style_merge_with_filter_spec a b (fun _ => true) hndb hco
    refine ⟨r, hr, fun n => ?_⟩
    rw [hlook n, mergePointwise]
    rcases hs : lookupAssoc a n with _ | sv <;>
      rcases hb : lookupAssoc b n with _ | ov
    · rfl
    · rfl
    · rfl
    · have hm : sv.ty.merge = noopMerge := hnoa (n, sv) (lookupAssoc_some_mem hs)
      show some { sv with value := sv.ty.merge sv.value ov.value } = (some sv).or (some ov)
      rw [hm]
      rfl
  · exact ⟨[(⟨0, 3⟩, ⟨xT, 1⟩), (⟨0, 4⟩, ⟨yT, 5⟩)], rfl, rfl, rfl⟩

theorem noop_rows_a : ∀ kv ∈ Style.push Style.new ⟨xT, 1⟩, kv.2.ty.merge = noopMerge := by
  show ∀ kv ∈ [((⟨0, 3⟩ : Name), (⟨xT, 1⟩ : AnyComponent))], kv.2.ty.merge = noopMerge
  intro kv hkv
  rw [List.mem_singleton] at hkv
  subst hkv
  rfl

theorem noop_rows_b :
    ∀ kv ∈ Style.push (Style.push Style.new ⟨xT, 2⟩) ⟨yT, 5⟩,
      kv.2.ty.merge = noopMerge := by
  show ∀ kv ∈ [((⟨0, 3⟩ : Name), (⟨xT, 2⟩ : AnyComponent)),
      ((⟨0, 4⟩ : Name), (⟨yT, 5⟩ : AnyComponent))], kv.2.ty.merge = noopMerge
  intro kv hkv
  rcases List.mem_cons.mp hkv with h | h
  · subst h
    rfl
  · rw [List.mem_singleton] at h
    subst h
    rfl

/-- Witness for C7 at the claim's own scenario styles. -/
theorem c7_merged_with_witness :
    (∀ kv ∈ Style.push Style.new ⟨xT, 1⟩, kv.2.ty.merge = noopMerge) ∧
      (∃ r, Style.merged_with (Style.push Style.new ⟨xT, 1⟩)
          (Style.push (Style.push Style.new ⟨xT, 2⟩) ⟨yT, 5⟩) = some r ∧
        ∀ n, lookupAssoc r n =
          (lookupAssoc (Style.push Style.new ⟨xT, 1⟩) n).or
            (lookupAssoc (Style.push (Style.push Style.new ⟨xT, 2⟩) ⟨yT, 5⟩) n)) :=
  ⟨noop_rows_a,
    (c7_merged_with (Style.push Style.new ⟨xT, 1⟩)
      (Style.push (Style.push Style.new ⟨xT, 2⟩) ⟨yT, 5⟩)
      noop_rows_a noop_rows_b (by decide) (by decide)).1⟩

/-!
## C4 — `Object::merge_with_filter`

The proof goes in two stages: `mergeAssoc` below is the structural
two-pointer merge on the observable association lists, proved to satisfy the
claim's per-`Name` description; `Object.mergeLoop` is then shown to refine
`mergeAssoc` on `Object.toList`.
-/

/-- Sortedness of an association list under the storage order (the list-level
image of `Object.sortedKeys`). -/
def keysSorted (l : List (Name × AnyComponent)) : Prop :=
  l.Pairwise fun x y => storageCmp x.1 y.1 = .lt

/-- The two-pointer sorted merge of src/object.rs:115-167, written
structurally on the observable lists: `lt` keeps `self`'s entry, `eq` merges
in place when the filter accepts (`none` being the `merge_with` panic), `gt`
copies `other`'s entry in when the filter accepts, and after either side is
exhausted the rest of `other` is drained through the same filter. -/
def mergeAssoc (f : AnyComponent → Bool) :
    List (Name × AnyComponent) → List (Name × AnyComponent) →
      Option (List (Name × AnyComponent))
  | s, [] => some s
  | [], o => some (o.filter fun kv => f kv.2)
  | (sn, sv) :: ss, (bn, bv) :: os =>
    match storageCmp sn bn with
    | .lt => (mergeAssoc f ss ((bn, bv) :: os)).map ((sn, sv) :: ·)
    | .eq =>
      if f bv then
        match sv.mergeWith bv with
        | some merged => (mergeAssoc f ss os).map ((sn, merged) :: ·)
        | none => none
      else
        (mergeAssoc f ss os).map ((sn, sv) :: ·)
    | .gt =>
      if f bv then (mergeAssoc f ((sn, sv) :: ss) os).map ((bn, bv) :: ·)
      else mergeAssoc f ((sn, sv) :: ss) os
termination_by s o => s.length + o.length

theorem keysSorted_nodup {l : List (Name × AnyComponent)} (h : keysSorted l) :
    (l.map Prod.fst).Nodup := by
  rw [List.Nodup, List.pairwise_map]
  refine h.imp fun hxy => ?_
  intro he
  rw [he] at hxy
  exact storageCmp_irrefl _ hxy

theorem keysSorted_head_lt {x : Name × AnyComponent} {l : List (Name × AnyComponent)}
    (h : keysSorted (x :: l)) : ∀ kv ∈ l, storageCmp x.1 kv.1 = .lt :=
  fun kv hkv => (List.pairwise_cons.mp h).1 kv hkv

theorem keysSorted_tail {x : Name × AnyComponent} {l : List (Name × AnyComponent)}
    (h : keysSorted (x :: l)) : keysSorted l :=
  (List.pairwise_cons.mp h).2

theorem lookupAssoc_none_of_lt {l : List (Name × AnyComponent)} {q : Name}
    (h : ∀ kv ∈ l, storageCmp q kv.1 = .lt) : lookupAssoc l q = none := by
  apply lookupAssoc_none_of_not_mem
  intro kv hkv he
  have := h kv hkv
  rw [he] at this
  exact storageCmp_irrefl _ this

theorem typeCoherent_cons_right {kv : Name × AnyComponent}
    {a b : List (Name × AnyComponent)} (h : typeCoherent a (kv :: b)) :
    typeCoherent a b :=
  fun kv1 h1 kv2 h2 he => h kv1 h1 kv2 (List.mem_cons_of_mem _ h2) he

theorem storageCmp_gt_iff {a b : Name} :
    storageCmp a b = .gt ↔
      b.authority < a.authority ∨ (b.authority = a.authority ∧ b.name < a.name) := by
  unfold storageCmp
  rcases ha : natCmp a.authority b.authority <;>
    simp_all [natCmp_lt_iff, natCmp_eq_iff, natCmp_gt_iff]
  omega

theorem storageCmp_gt_of_lt {a b : Name} (h : storageCmp a b = .lt) :
    storageCmp b a = .gt := by
  rw [storageCmp_lt_iff] at h
  rw [storageCmp_gt_iff]
  omega

theorem storageCmp_lt_of_gt {a b : Name} (h : storageCmp a b = .gt) :
    storageCmp b a = .lt := by
  rw [storageCmp_gt_iff] at h
  rw [storageCmp_lt_iff]
  omega

theorem mergePointwise_cons_left_ne {f : AnyComponent → Bool} {sn n : Name}
    {sv : AnyComponent} {ss o : List (Name × AnyComponent)} (h : ¬ sn = n) :
    mergePointwise f ((sn, sv) :: ss) o n = mergePointwise f ss o n := by
  rw [mergePointwise, mergePointwise, lookupAssoc_cons, if_neg h]

theorem mergePointwise_cons_right_ne {f : AnyComponent → Bool} {bn n : Name}
    {bv : AnyComponent} {s os : List (Name × AnyComponent)} (h : ¬ bn = n) :
    mergePointwise f s ((bn, bv) :: os) n = mergePointwise f s os n := by
  rw [mergePointwise, mergePointwise, lookupAssoc_cons, if_neg h]

theorem mergeAssoc_spec (f : AnyComponent → Bool)
    (s o : List (Name × AnyComponent)) :
    keysSorted s → keysSorted o → typeCoherent s o →
      ∃ t, mergeAssoc f s o = some t ∧ keysSorted t ∧
        (∀ q ∈ t.map Prod.fst, q ∈ s.map Prod.fst ∨ q ∈ o.map Prod.fst) ∧
        ∀ n, lookupAssoc t n = mergePointwise f s o n := by
  induction s, o using mergeAssoc.induct f with
  | case1 s =>
    intro hs _ _
    refine ⟨s, by rw [mergeAssoc], hs, fun q hq => Or.inl hq, fun n => ?_⟩
    rw [mergePointwise]
    rcases hl : lookupAssoc s n with _ | v <;> rfl
  | case2 o _hne =>
    intro _ ho _
    refine ⟨o.filter fun kv => f kv.2, ?_, List.Pairwise.filter _ ho, ?_, fun n => ?_⟩
    · rcases o with _ | ⟨kv, os⟩
      · exact absurd rfl _hne
      · rw [mergeAssoc]
        intro h
        cases h
    · intro q hq
      exact Or.inr (List.map_subset _ (List.filter_sublist _).subset hq)
    · rw [lookupAssoc_filter (keysSorted_nodup ho), mergePointwise]
      rcases hb : lookupAssoc o n with _ | bv <;> rfl
  | case3 sn sv ss bn bv os hcmp ih =>
    intro hs ho hco
    obtain ⟨t', ht', hsort', hnames', hlook'⟩ :=
      ih (keysSorted_tail hs) ho (typeCoherent_cons hco)
    have hlt_o : ∀ kv ∈ (bn, bv) :: os, storageCmp sn kv.1 = .lt := by
      intro kv hkv
      rcases List.mem_cons.mp hkv with h | h
      · rw [h]
        exact hcmp
      · exact storageCmp_trans hcmp (keysSorted_head_lt ho kv h)
    refine ⟨(sn, sv) :: t', ?_, ?_, ?_, fun n => ?_⟩
    · rw [mergeAssoc, hcmp, ht']
      rfl
    · rw [keysSorted, List.pairwise_cons]
      refine ⟨fun kv hkv => ?_, hsort'⟩
      rcases hnames' kv.1 (List.mem_map_of_mem Prod.fst hkv) with h | h
      · obtain ⟨kv', hkv', he⟩ := List.mem_map.mp h
        rw [← he]
        exact keysSorted_head_lt hs kv' hkv'
      · obtain ⟨kv', hkv', he⟩ := List.mem_map.mp h
        rw [← he]
        exact hlt_o kv' hkv'
    · intro q hq
      rcases List.mem_cons.mp hq with h | h
      · exact Or.inl (by rw [h, List.map_cons]; exact List.mem_cons_self _ _)
      · rcases hnames' q h with h' | h'
        · exact Or.inl (by rw [List.map_cons]; exact List.mem_cons_of_mem _ h')
        · exact Or.inr h'
    · by_cases hn : sn = n
      · subst hn
        rw [lookupAssoc_cons, if_pos rfl, mergePointwise, lookupAssoc_cons, if_pos rfl,
          lookupAssoc_none_of_lt hlt_o]
      · rw [lookupAssoc_cons, if_neg hn, hlook' n, mergePointwise_cons_left_ne hn]
  | case4 sn sv ss bn bv os hcmp hf merged hmerge ih =>
    intro hs ho hco
    have heq : sn = bn := storageCmp_eq_iff.mp hcmp
    subst heq
    obtain ⟨t', ht', hsort', hnames', hlook'⟩ :=
      ih (keysSorted_tail hs) (keysSorted_tail ho)
        (typeCoherent_cons_right (typeCoherent_cons hco))
    have hmerged : merged = { sv with value := sv.ty.merge sv.value bv.value } := by
      have hid : bv.ty.id = sv.ty.id :=
        hco (sn, sv) (List.mem_cons_self _ _) (sn, bv) (List.mem_cons_self _ _) rfl
      rw [AnyComponent.mergeWith, if_pos hid] at hmerge
      exact (Option.some.injEq _ _ ▸ hmerge).symm
    refine ⟨(sn, merged) :: t', ?_, ?_, ?_, fun n => ?_⟩
    · rw [mergeAssoc, hcmp, hf, hmerge, ht']
      rfl
    · rw [keysSorted, List.pairwise_cons]
      refine ⟨fun kv hkv => ?_, hsort'⟩
      rcases hnames' kv.1 (List.mem_map_of_mem Prod.fst hkv) with h | h <;>
        obtain ⟨kv', hkv', he⟩ := List.mem_map.mp h <;> rw [← he]
      · exact keysSorted_head_lt hs kv' hkv'
      · exact keysSorted_head_lt ho kv' hkv'
    · intro q hq
      rcases List.mem_cons.mp hq with h | h
      · exact Or.inl (by rw [h, List.map_cons]; exact List.mem_cons_self _ _)
      · rcases hnames' q h with h' | h'
        · exact Or.inl (by rw [List.map_cons]; exact List.mem_cons_of_mem _ h')
        · exact Or.inr (by rw [List.map_cons]; exact List.mem_cons_of_mem _ h')
    · by_cases hn : sn = n
      · subst hn
        rw [lookupAssoc_cons, if_pos rfl, mergePointwise, lookupAssoc_cons, if_pos rfl,
          lookupAssoc_cons, if_pos rfl, hmerged]
        simp [hf]
      · rw [lookupAssoc_cons, if_neg hn, hlook' n, mergePointwise_cons_left_ne hn,
          mergePointwise_cons_right_ne hn]
  | case5 sn sv ss bn bv os hcmp hf hmerge =>
    intro _ _ hco
    have heq : sn = bn := storageCmp_eq_iff.mp hcmp
    subst heq
    have hid : bv.ty.id = sv.ty.id :=
      hco (sn, sv) (List.mem_cons_self _ _) (sn, bv) (List.mem_cons_self _ _) rfl
    rw [AnyComponent.mergeWith, if_pos hid] at hmerge
    cases hmerge
  | case6 sn sv ss bn bv os hcmp hf ih =>
    intro hs ho hco
    have heq : sn = bn := storageCmp_eq_iff.mp hcmp
    subst heq
    obtain ⟨t', ht', hsort', hnames', hlook'⟩ :=
      ih (keysSorted_tail hs) (keysSorted_tail ho)
        (typeCoherent_cons_right (typeCoherent_cons hco))
    refine ⟨(sn, sv) :: t', ?_, ?_, ?_, fun n => ?_⟩
    · rw [mergeAssoc, hcmp, ht']
      simp [Bool.not_eq_true] at hf
      rw [hf]
      rfl
    · rw [keysSorted, List.pairwise_cons]
      refine ⟨fun kv hkv => ?_, hsort'⟩
      rcases hnames' kv.1 (List.mem_map_of_mem Prod.fst hkv) with h | h <;>
        obtain ⟨kv', hkv', he⟩ := List.mem_map.mp h <;> rw [← he]
      · exact keysSorted_head_lt hs kv' hkv'
      · exact keysSorted_head_lt ho kv' hkv'
    · intro q hq
      rcases List.mem_cons.mp hq with h | h
      · exact Or.inl (by rw [h, List.map_cons]; exact List.mem_cons_self _ _)
      · rcases hnames' q h with h' | h'
        · exact Or.inl (by rw [List.map_cons]; exact List.mem_cons_of_mem _ h')
        · exact Or.inr (by rw [List.map_cons]; exact List.mem_cons_of_mem _ h')
    · by_cases hn : sn = n
      · subst hn
        rw [lookupAssoc_cons, if_pos rfl, mergePointwise, lookupAssoc_cons, if_pos rfl,
          lookupAssoc_cons, if_pos rfl]
        simp [Bool.not_eq_true] at hf
        simp [hf]
      · rw [lookupAssoc_cons, if_neg hn, hlook' n, mergePointwise_cons_left_ne hn,
          mergePointwise_cons_right_ne hn]
  | case7 sn sv ss bn bv os hcmp hf ih =>
    intro hs ho hco
    obtain ⟨t', ht', hsort', hnames', hlook'⟩ :=
      ih hs (keysSorted_tail ho) (typeCoherent_cons_right hco)
    have hlt_s : ∀ kv ∈ (sn, sv) :: ss, storageCmp bn kv.1 = .lt := by
      intro kv hkv
      rcases List.mem_cons.mp hkv with h | h
      · rw [h]
        exact storageCmp_lt_of_gt hcmp
      · exact storageCmp_trans (storageCmp_lt_of_gt hcmp) (keysSorted_head_lt hs kv h)
    refine ⟨(bn, bv) :: t', ?_, ?_, ?_, fun n => ?_⟩
    · rw [mergeAssoc, hcmp, hf, ht']
      rfl
    · rw [keysSorted, List.pairwise_cons]
      refine ⟨fun kv hkv => ?_, hsort'⟩
      rcases hnames' kv.1 (List.mem_map_of_mem Prod.fst hkv) with h | h <;>
        obtain ⟨kv', hkv', he⟩ := List.mem_map.mp h <;> rw [← he]
      · exact hlt_s kv' hkv'
      · exact keysSorted_head_lt ho kv' hkv'
    · intro q hq
      rcases List.mem_cons.mp hq with h | h
      · exact Or.inr (by rw [h, List.map_cons]; exact List.mem_cons_self _ _)
      · rcases hnames' q h with h' | h'
        · exact Or.inl h'
        · exact Or.inr (by rw [List.map_cons]; exact List.mem_cons_of_mem _ h')
    · by_cases hn : bn = n
      · subst hn
        rw [lookupAssoc_cons, if_pos rfl, mergePointwise,
          lookupAssoc_none_of_lt hlt_s, lookupAssoc_cons, if_pos rfl]
        simp [hf]
      · rw [lookupAssoc_cons, if_neg hn, hlook' n, mergePointwise_cons_right_ne hn]
  | case8 sn sv ss bn bv os hcmp hf ih =>
    intro hs ho hco
    obtain ⟨t', ht', hsort', hnames', hlook'⟩ :=
      ih hs (keysSorted_tail ho) (typeCoherent_cons_right hco)
    have hlt_s : ∀ kv ∈ (sn, sv) :: ss, storageCmp bn kv.1 = .lt := by
      intro kv hkv
      rcases List.mem_cons.mp hkv with h | h
      · rw [h]
        exact storageCmp_lt_of_gt hcmp
      · exact storageCmp_trans (storageCmp_lt_of_gt hcmp) (keysSorted_head_lt hs kv h)
    have hlt_os : ∀ kv ∈ os, storageCmp bn kv.1 = .lt := keysSorted_head_lt ho
    refine ⟨t', ?_, hsort', ?_, fun n => ?_⟩
    · rw [mergeAssoc, hcmp, ht']
      simp [Bool.not_eq_true] at hf
      rw [hf]
      rfl
    · intro q hq
      rcases hnames' q hq with h' | h'
      · exact Or.inl h'
      · exact Or.inr (by rw [List.map_cons]; exact List.mem_cons_of_mem _ h')
    · by_cases hn : bn = n
      · subst hn
        rw [hlook' bn, mergePointwise, mergePointwise,
          lookupAssoc_none_of_lt hlt_s, lookupAssoc_none_of_lt hlt_os,
          lookupAssoc_cons, if_pos rfl]
        simp [hf]
      · rw [hlook' n, mergePointwise_cons_right_ne hn]

/-! ### List helpers for the arena reasoning -/

theorem getD_set_self {α : Type _} (l : List α) (i : Nat) (x d : α)
    (h : i < l.length) : (l.set i x).getD i d = x := by
  simp [List.getD_eq_getElem?_getD, List.getElem?_set_self', h]

theorem getD_set_ne {α : Type _} (l : List α) (i j : Nat) (x d : α) (h : i ≠ j) :
    (l.set i x).getD j d = l.getD j d := by
  rw [List.getD_eq_getElem?_getD, List.getD_eq_getElem?_getD, List.getElem?_set_ne h]

theorem getD_append_left {α : Type _} (l l' : List α) (i : Nat) (d : α)
    (h : i < l.length) : (l ++ l').getD i d = l.getD i d := by
  simp [List.getD_eq_getElem?_getD, List.getElem?_append_left h]

theorem getD_append_length {α : Type _} (l : List α) (x d : α) :
    (l ++ [x]).getD l.length d = x := by
  simp [List.getD_eq_getElem?_getD]

theorem take_set_self {α : Type _} (l : List α) (i : Nat) (x : α) :
    (l.set i x).take i = l.take i := by
  induction l generalizing i with
  | nil => rfl
  | cons a l ih =>
    cases i with
    | zero => rfl
    | succ i => simp [List.take_succ_cons, ih]

theorem drop_set_succ {α : Type _} (l : List α) (i : Nat) (x : α) :
    (l.set i x).drop (i + 1) = l.drop (i + 1) := by
  induction l generalizing i with
  | nil => rfl
  | cons a l ih =>
    cases i with
    | zero => rfl
    | succ i => simpa using ih i

theorem take_append_getD {α : Type _} (l : List α) (i : Nat) (d : α)
    (h : i < l.length) : l.take i ++ [l.getD i d] = l.take (i + 1) := by
  rw [List.getD_eq_getElem?_getD, List.getElem?_eq_getElem h, List.take_succ,
    List.getElem?_eq_getElem h]
  rfl

theorem drop_eq_getD_cons {α : Type _} {l : List α} {i : Nat} (d : α)
    (h : i < l.length) : l.drop i = l.getD i d :: l.drop (i + 1) := by
  rw [List.getD_eq_getElem?_getD, List.getElem?_eq_getElem h]
  exact List.drop_eq_getElem_cons h

theorem vecInsert_length {α : Type _} (l : List α) (i : Nat) (a : α)
    (h : i ≤ l.length) : (vecInsert l i a).length = l.length + 1 := by
  simp [vecInsert]
  omega

theorem vecInsert_at_length {α : Type _} (l : List α) (a : α) :
    vecInsert l l.length a = l ++ [a] := by
  simp [vecInsert]

theorem mem_vecInsert {α : Type _} {l : List α} {i : Nat} {a x : α} :
    x ∈ vecInsert l i a ↔ x = a ∨ x ∈ l := by
  unfold vecInsert
  constructor
  · intro h
    rcases List.mem_append.mp h with h | h
    · exact Or.inr (List.take_subset _ _ h)
    · rcases List.mem_cons.mp h with h | h
      · exact Or.inl h
      · exact Or.inr (List.drop_subset _ _ h)
  · intro h
    rcases h with h | h
    · exact List.mem_append.mpr (Or.inr (h ▸ List.mem_cons_self _ _))
    · conv at h => rw [← List.take_append_drop i l]
      rcases List.mem_append.mp h with h | h
      · exact List.mem_append.mpr (Or.inl h)
      · exact List.mem_append.mpr (Or.inr (List.mem_cons_of_mem _ h))

/-! ### `Object.toList` under the loop's three mutations -/

/-- The observable entry a key denotes. -/
def entryOf (values : List AnyComponent) (k : Key) : Name × AnyComponent :=
  (k.key, values.getD k.value_id dfltComponent)

theorem toList_eq_map (o : Object) :
    o.toList = o.ordered_keys.map (entryOf o.values) := rfl

theorem toList_take (o : Object) (i : Nat) :
    (o.toList).take i = (o.ordered_keys.take i).map (entryOf o.values) := by
  rw [toList_eq_map, List.map_take]

theorem toList_drop (o : Object) (i : Nat) :
    (o.toList).drop i = (o.ordered_keys.drop i).map (entryOf o.values) := by
  rw [toList_eq_map, List.map_drop]

theorem keys_split (o : Object) (si : Nat) (hsi : si < o.ordered_keys.length) :
    o.ordered_keys = o.ordered_keys.take si ++
      o.ordered_keys.getD si dfltKey :: o.ordered_keys.drop (si + 1) := by
  conv_lhs => rw [← List.take_append_drop si o.ordered_keys]
  rw [← drop_eq_getD_cons dfltKey hsi]

theorem getD_mem_keys (o : Object) (si : Nat) (hsi : si < o.ordered_keys.length) :
    o.ordered_keys.getD si dfltKey ∈ o.ordered_keys := by
  rw [List.getD_eq_getElem?_getD, List.getElem?_eq_getElem hsi]
  exact List.getElem_mem _

theorem wf_values_set (o : Object) (i : Nat) (m : AnyComponent) (hwf : o.WF) :
    Object.WF { o with values := o.values.set i m } := by
  obtain ⟨hb, hd⟩ := hwf
  exact ⟨fun k hk => by simpa using hb k hk, hd⟩

theorem wf_push_insert (o : Object) (si : Nat) (bn : Name) (bv : AnyComponent)
    (hsi : si ≤ o.ordered_keys.length) (hwf : o.WF) :
    Object.WF ({ values := o.values ++ [bv],
                 ordered_keys := vecInsert o.ordered_keys si ⟨bn, o.values.length⟩ }) := by
  obtain ⟨hb, hd⟩ := hwf
  constructor
  · intro k hk
    rcases mem_vecInsert.mp hk with h | h
    · rw [h]
      simp
    · have := hb k h
      simp only [List.length_append, List.length_cons, List.length_nil]
      omega
  · show (vecInsert o.ordered_keys si ⟨bn, o.values.length⟩).Pairwise
      fun a b => a.value_id ≠ b.value_id
    unfold vecInsert
    rw [List.pairwise_append]
    have hpw : (o.ordered_keys.take si ++ o.ordered_keys.drop si).Pairwise
        (fun a b => a.value_id ≠ b.value_id) := by
      rw [List.take_append_drop]
      exact hd
    rw [List.pairwise_append] at hpw
    obtain ⟨hpw1, hpw2, hcross⟩ := hpw
    refine ⟨hpw1, ?_, ?_⟩
    · rw [List.pairwise_cons]
      refine ⟨fun k hk => ?_, hpw2⟩
      have := hb k (List.drop_subset _ _ hk)
      simp only
      omega
    · intro a ha b hb'
      rcases List.mem_cons.mp hb' with h | h
      · rw [h]
        have := hb a (List.take_subset _ _ ha)
        simp only
        omega
      · exact hcross a ha b h

theorem id_ne_of_take {o : Object} {si : Nat} (hwf : o.WF)
    (hsi : si < o.ordered_keys.length) :
    ∀ k ∈ o.ordered_keys.take si,
      k.value_id ≠ (o.ordered_keys.getD si dfltKey).value_id := by
  obtain ⟨_, hd⟩ := hwf
  have hpw : (o.ordered_keys.take si ++
      o.ordered_keys.getD si dfltKey :: o.ordered_keys.drop (si + 1)).Pairwise
        (fun a b => a.value_id ≠ b.value_id) := by
    rw [← keys_split o si hsi]
    exact hd
  rw [List.pairwise_append] at hpw
  exact fun k hk => hpw.2.2 k hk _ (List.mem_cons_self _ _)

theorem id_ne_of_drop {o : Object} {si : Nat} (hwf : o.WF)
    (hsi : si < o.ordered_keys.length) :
    ∀ k ∈ o.ordered_keys.drop (si + 1),
      k.value_id ≠ (o.ordered_keys.getD si dfltKey).value_id := by
  obtain ⟨_, hd⟩ := hwf
  have hpw : (o.ordered_keys.take si ++
      o.ordered_keys.getD si dfltKey :: o.ordered_keys.drop (si + 1)).Pairwise
        (fun a b => a.value_id ≠ b.value_id) := by
    rw [← keys_split o si hsi]
    exact hd
  rw [List.pairwise_append, List.pairwise_cons] at hpw
  exact fun k hk => (hpw.2.1.1 k hk).symm

theorem toList_values_set (o : Object) (si : Nat) (k0 : Key) (m : AnyComponent)
    (hk0 : o.ordered_keys.getD si dfltKey = k0)
    (hsi : si < o.ordered_keys.length) (hwf : o.WF) :
    Object.toList ({ o with values := o.values.set k0.value_id m }) =
      (o.toList).take si ++ (k0.key, m) :: (o.toList).drop (si + 1) := by
  have hid : k0.value_id < o.values.length :=
    hwf.1 k0 (hk0 ▸ getD_mem_keys o si hsi)
  have htake := id_ne_of_take hwf hsi
  have hdrop := id_ne_of_drop hwf hsi
  rw [hk0] at htake hdrop
  rw [toList_eq_map, toList_take, toList_drop]
  show (o.ordered_keys.map fun k =>
      (k.key, (o.values.set k0.value_id m).getD k.value_id dfltComponent)) = _
  have hsplit := keys_split o si hsi
  rw [hk0] at hsplit
  conv_lhs => rw [hsplit]
  rw [List.map_append, List.map_cons]
  congr 1
  · apply List.map_congr_left
    intro k hk
    rw [getD_set_ne _ _ _ _ _ (fun he => htake k hk he.symm)]
    rfl
  · congr 1
    · rw [getD_set_self _ _ _ _ hid]
    · apply List.map_congr_left
      intro k hk
      rw [getD_set_ne _ _ _ _ _ (fun he => hdrop k hk he.symm)]
      rfl

theorem toList_push_insert (o : Object) (si : Nat) (bn : Name) (bv : AnyComponent)
    (hsi : si ≤ o.ordered_keys.length) (hwf : o.WF) :
    Object.toList ({ values := o.values ++ [bv],
                     ordered_keys := vecInsert o.ordered_keys si
                       ⟨bn, o.values.length⟩ }) =
      (o.toList).take si ++ (bn, bv) :: (o.toList).drop si := by
  rw [toList_eq_map, toList_take, toList_drop]
  show ((vecInsert o.ordered_keys si ⟨bn, o.values.length⟩).map fun k =>
      (k.key, (o.values ++ [bv]).getD k.value_id dfltComponent)) = _
  unfold vecInsert
  rw [List.map_append, List.map_cons]
  congr 1
  · apply List.map_congr_left
    intro k hk
    rw [getD_append_left _ _ _ _ (hwf.1 k (List.take_subset _ _ hk))]
    rfl
  · congr 1
    · show (bn, (o.values ++ [bv]).getD o.values.length dfltComponent) = (bn, bv)
      rw [getD_append_length]
    · apply List.map_congr_left
      intro k hk
      rw [getD_append_left _ _ _ _ (hwf.1 k (List.drop_subset _ _ hk))]
      rfl

theorem toList_length (o : Object) : (o.toList).length = o.ordered_keys.length := by
  simp [Object.toList]

theorem toList_drop_cons (o : Object) {si : Nat} (hsi : si < o.ordered_keys.length) :
    (o.toList).drop si =
      entryOf o.values (o.ordered_keys.getD si dfltKey) :: (o.toList).drop (si + 1) := by
  rw [toList_drop, toList_drop, drop_eq_getD_cons dfltKey hsi, List.map_cons]

theorem toList_take_succ (o : Object) {si : Nat} (hsi : si < o.ordered_keys.length) :
    (o.toList).take (si + 1) =
      (o.toList).take si ++ [entryOf o.values (o.ordered_keys.getD si dfltKey)] := by
  rw [toList_take, toList_take, ← take_append_getD o.ordered_keys si dfltKey hsi,
    List.map_append, List.map_cons]
  rfl

theorem mergeAssoc_nil_left (f : AnyComponent → Bool)
    (o : List (Name × AnyComponent)) :
    mergeAssoc f [] o = some (o.filter fun kv => f kv.2) := by
  rcases o with _ | ⟨kv, os⟩
  · rw [mergeAssoc]
    rfl
  · rw [mergeAssoc]
    intro h
    cases h

/-- The drain loop (src/object.rs:154-167), specified: the result extends the
accumulator by exactly the accepted entries, in order, and stays
well-formed. -/
theorem drain_fold_spec (other : Object) (f : AnyComponent → Bool) :
    ∀ (ks : List Key) (self : Object), self.WF →
      (ks.foldl (fun acc key =>
          let other_component := other.values.getD key.value_id dfltComponent
          if f other_component then
            { values := acc.values ++ [other_component],
              ordered_keys := acc.ordered_keys ++ [⟨key.key, acc.values.length⟩] }
          else acc) self).WF ∧
        (ks.foldl (fun acc key =>
          let other_component := other.values.getD key.value_id dfltComponent
          if f other_component then
            { values := acc.values ++ [other_component],
              ordered_keys := acc.ordered_keys ++ [⟨key.key, acc.values.length⟩] }
          else acc) self).toList =
          self.toList ++ (ks.map (entryOf other.values)).filter fun kv => f kv.2 := by
  intro ks
  induction ks with
  | nil =>
    intro self hwf
    exact ⟨hwf, by simp⟩
  | cons key ks ih =>
    intro self hwf
    rw [List.foldl_cons, List.map_cons]
    rcases hf : f (other.values.getD key.value_id dfltComponent)
    · have hstep : (if f (other.values.getD key.value_id dfltComponent) = true then
          ({ values := self.values ++ [other.values.getD key.value_id dfltComponent],
             ordered_keys :=
               self.ordered_keys ++ [⟨key.key, self.values.length⟩] } : Object)
          else self) = self := by rw [hf]; rfl
      rw [hstep]
      obtain ⟨hwf', htl⟩ := ih self hwf
      refine ⟨hwf', ?_⟩
      rw [htl, List.filter_cons]
      have : (f (entryOf other.values key).2) = false := hf
      rw [this]
      rfl
    · have hkeys : self.ordered_keys ++ [(⟨key.key, self.values.length⟩ : Key)] =
          vecInsert self.ordered_keys self.ordered_keys.length
            ⟨key.key, self.values.length⟩ := (vecInsert_at_length _ _).symm
      have hstep : (if f (other.values.getD key.value_id dfltComponent) = true then
          ({ values := self.values ++ [other.values.getD key.value_id dfltComponent],
             ordered_keys :=
               self.ordered_keys ++ [⟨key.key, self.values.length⟩] } : Object)
          else self) =
          ({ values := self.values ++ [other.values.getD key.value_id dfltComponent],
             ordered_keys :=
               vecInsert self.ordered_keys self.ordered_keys.length
                 ⟨key.key, self.values.length⟩ } : Object) := by
        rw [hf, if_pos rfl, hkeys]
      rw [hstep]
      have hwf' := wf_push_insert self self.ordered_keys.length key.key
        (other.values.getD key.value_id dfltComponent) (le_refl _) hwf
      have htl' := toList_push_insert self self.ordered_keys.length key.key
        (other.values.getD key.value_id dfltComponent) (le_refl _) hwf
      obtain ⟨hwf'', htl''⟩ := ih _ hwf'
      refine ⟨hwf'', ?_⟩
      rw [htl'', htl']
      rw [List.take_of_length_le (by rw [toList_length]),
        List.drop_eq_nil_of_le (by rw [toList_length])]
      rw [List.filter_cons]
      have : (f (entryOf other.values key).2) = true := hf
      rw [this]
      simp [entryOf, List.getD_eq_getElem?_getD]

/-! ### One-step equations for the two merges -/

theorem mergeAssoc_cc_lt {f : AnyComponent → Bool} {sn bn : Name}
    {sv bv : AnyComponent} {ss os : List (Name × AnyComponent)}
    (hcmp : storageCmp sn bn = .lt) :
    mergeAssoc f ((sn, sv) :: ss) ((bn, bv) :: os) =
      (mergeAssoc f ss ((bn, bv) :: os)).map ((sn, sv) :: ·) := by
  rw [mergeAssoc, hcmp]

theorem mergeAssoc_cc_eq_some {f : AnyComponent → Bool} {sn bn : Name}
    {sv bv merged : AnyComponent} {ss os : List (Name × AnyComponent)}
    (hcmp : storageCmp sn bn = .eq) (hf : f bv = true)
    (hm : sv.mergeWith bv = some merged) :
    mergeAssoc f ((sn, sv) :: ss) ((bn, bv) :: os) =
      (mergeAssoc f ss os).map ((sn, merged) :: ·) := by
  rw [mergeAssoc]
  simp only [hcmp, hf, hm, if_true]

theorem mergeAssoc_cc_eq_none {f : AnyComponent → Bool} {sn bn : Name}
    {sv bv : AnyComponent} {ss os : List (Name × AnyComponent)}
    (hcmp : storageCmp sn bn = .eq) (hf : f bv = true)
    (hm : sv.mergeWith bv = none) :
    mergeAssoc f ((sn, sv) :: ss) ((bn, bv) :: os) = none := by
  rw [mergeAssoc]
  simp only [hcmp, hf, hm, if_true]

theorem mergeAssoc_cc_eq_reject {f : AnyComponent → Bool} {sn bn : Name}
    {sv bv : AnyComponent} {ss os : List (Name × AnyComponent)}
    (hcmp : storageCmp sn bn = .eq) (hf : f bv = false) :
    mergeAssoc f ((sn, sv) :: ss) ((bn, bv) :: os) =
      (mergeAssoc f ss os).map ((sn, sv) :: ·) := by
  rw [mergeAssoc]
  simp only [hcmp, hf, Bool.false_eq_true, if_false]

theorem mergeAssoc_cc_gt_accept {f : AnyComponent → Bool} {sn bn : Name}
    {sv bv : AnyComponent} {ss os : List (Name × AnyComponent)}
    (hcmp : storageCmp sn bn = .gt) (hf : f bv = true) :
    mergeAssoc f ((sn, sv) :: ss) ((bn, bv) :: os) =
      (mergeAssoc f ((sn, sv) :: ss) os).map ((bn, bv) :: ·) := by
  rw [mergeAssoc]
  simp only [hcmp, hf, if_true]

theorem mergeAssoc_cc_gt_reject {f : AnyComponent → Bool} {sn bn : Name}
    {sv bv : AnyComponent} {ss os : List (Name × AnyComponent)}
    (hcmp : storageCmp sn bn = .gt) (hf : f bv = false) :
    mergeAssoc f ((sn, sv) :: ss) ((bn, bv) :: os) =
      mergeAssoc f ((sn, sv) :: ss) os := by
  rw [mergeAssoc]
  simp only [hcmp, hf, Bool.false_eq_true, if_false]

theorem mergeLoop_step_exit {self other : Object} {f : AnyComponent → Bool}
    {si oi : Nat}
    (h : ¬(si < self.ordered_keys.length ∧ oi < other.ordered_keys.length)) :
    Object.mergeLoop self other f si oi = some (self.drainOther other f oi) := by
  rw [Object.mergeLoop, dif_neg h]

theorem mergeLoop_step_lt {self other : Object} {f : AnyComponent → Bool}
    {si oi : Nat}
    (h : si < self.ordered_keys.length ∧ oi < other.ordered_keys.length)
    (hcmp : (self.ordered_keys.getD si dfltKey).partialCmpName
      (other.ordered_keys.getD oi dfltKey).key = .lt) :
    Object.mergeLoop self other f si oi =
      Object.mergeLoop self other f (si + 1) oi := by
  rw [Object.mergeLoop, dif_pos h]
  simp only [hcmp]

theorem mergeLoop_step_eq_some {self other : Object} {f : AnyComponent → Bool}
    {si oi : Nat} {merged : AnyComponent}
    (h : si < self.ordered_keys.length ∧ oi < other.ordered_keys.length)
    (hcmp : (self.ordered_keys.getD si dfltKey).partialCmpName
      (other.ordered_keys.getD oi dfltKey).key = .eq)
    (hf : f (other.values.getD (other.ordered_keys.getD oi dfltKey).value_id
      dfltComponent) = true)
    (hm : (self.values.getD (self.ordered_keys.getD si dfltKey).value_id
        dfltComponent).mergeWith
      (other.values.getD (other.ordered_keys.getD oi dfltKey).value_id
        dfltComponent) = some merged) :
    Object.mergeLoop self other f si oi =
      Object.mergeLoop ({ self with
                          values := self.values.set
                            (self.ordered_keys.getD si dfltKey).value_id merged })
        other f (si + 1) (oi + 1) := by
  rw [Object.mergeLoop, dif_pos h]
  simp only [hcmp, hf, hm, if_true]

theorem mergeLoop_step_eq_none {self other : Object} {f : AnyComponent → Bool}
    {si oi : Nat}
    (h : si < self.ordered_keys.length ∧ oi < other.ordered_keys.length)
    (hcmp : (self.ordered_keys.getD si dfltKey).partialCmpName
      (other.ordered_keys.getD oi dfltKey).key = .eq)
    (hf : f (other.values.getD (other.ordered_keys.getD oi dfltKey).value_id
      dfltComponent) = true)
    (hm : (self.values.getD (self.ordered_keys.getD si dfltKey).value_id
        dfltComponent).mergeWith
      (other.values.getD (other.ordered_keys.getD oi dfltKey).value_id
        dfltComponent) = none) :
    Object.mergeLoop self other f si oi = none := by
  rw [Object.mergeLoop, dif_pos h]
  simp only [hcmp, hf, hm, if_true]

theorem mergeLoop_step_eq_reject {self other : Object} {f : AnyComponent → Bool}
    {si oi : Nat}
    (h : si < self.ordered_keys.length ∧ oi < other.ordered_keys.length)
    (hcmp : (self.ordered_keys.getD si dfltKey).partialCmpName
      (other.ordered_keys.getD oi dfltKey).key = .eq)
    (hf : f (other.values.getD (other.ordered_keys.getD oi dfltKey).value_id
      dfltComponent) = false) :
    Object.mergeLoop self other f si oi =
      Object.mergeLoop self other f (si + 1) (oi + 1) := by
  rw [Object.mergeLoop, dif_pos h]
  simp only [hcmp, hf, Bool.false_eq_true, if_false]

theorem mergeLoop_step_gt_accept {self other : Object} {f : AnyComponent → Bool}
    {si oi : Nat}
    (h : si < self.ordered_keys.length ∧ oi < other.ordered_keys.length)
    (hcmp : (self.ordered_keys.getD si dfltKey).partialCmpName
      (other.ordered_keys.getD oi dfltKey).key = .gt)
    (hf : f (other.values.getD (other.ordered_keys.getD oi dfltKey).value_id
      dfltComponent) = true) :
    Object.mergeLoop self other f si oi =
      Object.mergeLoop
        ({ values := self.values ++
             [other.values.getD (other.ordered_keys.getD oi dfltKey).value_id
               dfltComponent],
           ordered_keys := vecInsert self.ordered_keys si
             ⟨(other.ordered_keys.getD oi dfltKey).key, self.values.length⟩ })
        other f (si + 1) (oi + 1) := by
  rw [Object.mergeLoop, dif_pos h]
  simp only [hcmp, hf, if_true]

theorem mergeLoop_step_gt_reject {self other : Object} {f : AnyComponent → Bool}
    {si oi : Nat}
    (h : si < self.ordered_keys.length ∧ oi < other.ordered_keys.length)
    (hcmp : (self.ordered_keys.getD si dfltKey).partialCmpName
      (other.ordered_keys.getD oi dfltKey).key = .gt)
    (hf : f (other.values.getD (other.ordered_keys.getD oi dfltKey).value_id
      dfltComponent) = false) :
    Object.mergeLoop self other f si oi =
      Object.mergeLoop self other f si (oi + 1) := by
  rw [Object.mergeLoop, dif_pos h]
  simp only [hcmp, hf, Bool.false_eq_true, if_false]

theorem take_middle_eq {α : Type _} (l1 l2 : List α) (x : α) (k : Nat)
    (hk : l1.length = k) : (l1 ++ x :: l2).take (k + 1) = l1 ++ [x] := by
  rw [List.append_cons]
  apply List.take_left'
  simp [hk]

theorem drop_middle_eq {α : Type _} (l1 l2 : List α) (x : α) (k : Nat)
    (hk : l1.length = k) : (l1 ++ x :: l2).drop (k + 1) = l2 := by
  rw [List.append_cons]
  apply List.drop_left'
  simp [hk]

theorem length_toList_take (o : Object) (si : Nat)
    (hsi : si ≤ o.ordered_keys.length) : ((o.toList).take si).length = si := by
  rw [List.length_take, toList_length]
  omega

theorem toList_drop_cons_pair (o : Object) {si : Nat}
    (hsi : si < o.ordered_keys.length) :
    (o.toList).drop si = ((o.ordered_keys.getD si dfltKey).key,
        o.values.getD (o.ordered_keys.getD si dfltKey).value_id dfltComponent) ::
      (o.toList).drop (si + 1) :=
  toList_drop_cons o hsi

/-- The main loop of `Object::merge_with_filter` refines the structural merge
`mergeAssoc` on the observable lists: started at positions `si`/`oi` with at
most `N` steps of combined progress left, it returns `none` exactly when
`mergeAssoc` does on the remaining suffixes, and otherwise a well-formed
object whose observable content is the untouched prefix of `self` followed
by `mergeAssoc`'s result. -/
theorem mergeLoop_refines_aux (other : Object) (f : AnyComponent → Bool) :
    ∀ (N : Nat) (self : Object) (si oi : Nat),
      (other.ordered_keys.length - oi) + (self.ordered_keys.length - si) ≤ N →
      self.WF → si ≤ self.ordered_keys.length → oi ≤ other.ordered_keys.length →
      (match mergeAssoc f ((self.toList).drop si) ((other.toList).drop oi) with
       | some t => ∃ r, Object.mergeLoop self other f si oi = some r ∧ r.WF ∧
           r.toList = (self.toList).take si ++ t
       | none => Object.mergeLoop self other f si oi = none) := by
  intro N
  induction N with
  | zero =>
    intro self si oi hN hwf hsi hoi
    have hexit : ¬(si < self.ordered_keys.length ∧
        oi < other.ordered_keys.length) := by omega
    have hso : oi = other.ordered_keys.length ∨
        si = self.ordered_keys.length := by omega
    rw [mergeLoop_step_exit hexit]
    rcases hso with hoe | hse
    · have hdo : (other.toList).drop oi = [] := by
        apply List.drop_eq_nil_of_le
        rw [toList_length]
        omega
      have hko : other.ordered_keys.drop oi = [] := by
        apply List.drop_eq_nil_of_le
        omega
      have hdrain : self.drainOther other f oi = self := by
        rw [Object.drainOther, hko]
        rfl
      rw [hdo, mergeAssoc, hdrain]
      exact ⟨self, rfl, hwf, (List.take_append_drop si self.toList).symm⟩
    · have hds : (self.toList).drop si = [] := by
        apply List.drop_eq_nil_of_le
        rw [toList_length]
        omega
      have htake : (self.toList).take si = self.toList := by
        apply List.take_of_length_le
        rw [toList_length]
        omega
      rw [hds, mergeAssoc_nil_left]
      obtain ⟨hwf', htl'⟩ := drain_fold_spec other f
        (other.ordered_keys.drop oi) self hwf
      refine ⟨self.drainOther other f oi, rfl, hwf', ?_⟩
      show (Object.drainOther self other f oi).toList = _
      rw [Object.drainOther, htl', htake, toList_drop]
  | succ N ihN =>
    intro self si oi hN hwf hsi hoi
    by_cases h : si < self.ordered_keys.length ∧ oi < other.ordered_keys.length
    case neg =>
      -- exit: same reasoning as the base case.
      rw [mergeLoop_step_exit h]
      by_cases hs : si < self.ordered_keys.length
      · have hdo : (other.toList).drop oi = [] := by
          apply List.drop_eq_nil_of_le
          rw [toList_length]
          omega
        have hko : other.ordered_keys.drop oi = [] := by
          apply List.drop_eq_nil_of_le
          omega
        have hdrain : self.drainOther other f oi = self := by
          rw [Object.drainOther, hko]
          rfl
        rw [hdo, mergeAssoc, hdrain]
        exact ⟨self, rfl, hwf, (List.take_append_drop si self.toList).symm⟩
      · have hds : (self.toList).drop si = [] := by
          apply List.drop_eq_nil_of_le
          rw [toList_length]
          omega
        have htake : (self.toList).take si = self.toList := by
          apply List.take_of_length_le
          rw [toList_length]
          omega
        rw [hds, mergeAssoc_nil_left]
        obtain ⟨hwf', htl'⟩ := drain_fold_spec other f
          (other.ordered_keys.drop oi) self hwf
        refine ⟨self.drainOther other f oi, rfl, hwf', ?_⟩
        show (Object.drainOther self other f oi).toList = _
        rw [Object.drainOther, htl', htake, toList_drop]
    case pos =>
      have hds := toList_drop_cons_pair self h.1
      have hdo := toList_drop_cons_pair other h.2
      rcases hcmp : (self.ordered_keys.getD si dfltKey).partialCmpName
          (other.ordered_keys.getD oi dfltKey).key with _ | _ | _
      · -- .lt
        have hstor : storageCmp (self.ordered_keys.getD si dfltKey).key
            (other.ordered_keys.getD oi dfltKey).key = .lt := hcmp
        rw [hds, hdo, mergeAssoc_cc_lt hstor, ← hdo]
        have IH := ihN self (si + 1) oi (by omega) hwf h.1 hoi
        rcases hrec : mergeAssoc f ((self.toList).drop (si + 1))
            ((other.toList).drop oi) with _ | t
        · rw [hrec] at IH
          simp only [Option.map_none']
          rw [mergeLoop_step_lt h hcmp]
          exact IH
        · rw [hrec] at IH
          obtain ⟨r, hr, hrwf, hrt⟩ := IH
          simp only [Option.map_some']
          refine ⟨r, ?_, hrwf, ?_⟩
          · rw [mergeLoop_step_lt h hcmp]
            exact hr
          · rw [hrt, toList_take_succ self h.1, List.append_assoc]
            rfl
      · -- .eq
        have hstor : storageCmp (self.ordered_keys.getD si dfltKey).key
            (other.ordered_keys.getD oi dfltKey).key = .eq := hcmp
        rcases hf : f (other.values.getD
            (other.ordered_keys.getD oi dfltKey).value_id dfltComponent)
        · -- filter rejects
          rw [hds, hdo, mergeAssoc_cc_eq_reject hstor hf]
          have IH := ihN self (si + 1) (oi + 1) (by omega) hwf h.1 h.2
          rcases hrec : mergeAssoc f ((self.toList).drop (si + 1))
              ((other.toList).drop (oi + 1)) with _ | t
          · rw [hrec] at IH
            simp only [Option.map_none']
            rw [mergeLoop_step_eq_reject h hcmp hf]
            exact IH
          · rw [hrec] at IH
            obtain ⟨r, hr, hrwf, hrt⟩ := IH
            simp only [Option.map_some']
            refine ⟨r, ?_, hrwf, ?_⟩
            · rw [mergeLoop_step_eq_reject h hcmp hf]
              exact hr
            · rw [hrt, toList_take_succ self h.1, List.append_assoc]
              rfl
        · -- filter accepts: the merge runs (or panics)
          rcases hm : (self.values.getD
              (self.ordered_keys.getD si dfltKey).value_id
                dfltComponent).mergeWith
              (other.values.getD (other.ordered_keys.getD oi dfltKey).value_id
                dfltComponent) with _ | merged
          · -- merge_with panics
            rw [hds, hdo, mergeAssoc_cc_eq_none hstor hf hm]
            exact mergeLoop_step_eq_none h hcmp hf hm
          · rw [hds, hdo, mergeAssoc_cc_eq_some hstor hf hm]
            have hwf' : Object.WF
                { self with
                  values := self.values.set
                    (self.ordered_keys.getD si dfltKey).value_id merged } :=
              wf_values_set self _ merged hwf
            have htl' := toList_values_set self si
              (self.ordered_keys.getD si dfltKey) merged rfl h.1 hwf
            have hdrop' : (Object.toList
                { self with
                  values := self.values.set
                    (self.ordered_keys.getD si dfltKey).value_id
                      merged }).drop (si + 1) =
                (self.toList).drop (si + 1) := by
              rw [htl']
              exact drop_middle_eq _ _ _ si
                (length_toList_take self si (le_of_lt h.1))
            have htake' : (Object.toList
                { self with
                  values := self.values.set
                    (self.ordered_keys.getD si dfltKey).value_id
                      merged }).take (si + 1) =
                (self.toList).take si ++
                  [((self.ordered_keys.getD si dfltKey).key, merged)] := by
              rw [htl']
              exact take_middle_eq _ _ _ si
                (length_toList_take self si (le_of_lt h.1))
            have IH := ihN
              { self with
                values := self.values.set
                  (self.ordered_keys.getD si dfltKey).value_id merged }
              (si + 1) (oi + 1) (by show _ + (self.ordered_keys.length - _) ≤ _; omega)
              hwf' (by show si + 1 ≤ self.ordered_keys.length; omega) h.2
            rw [hdrop'] at IH
            rcases hrec : mergeAssoc f ((self.toList).drop (si + 1))
                ((other.toList).drop (oi + 1)) with _ | t
            · rw [hrec] at IH
              simp only [Option.map_none']
              rw [mergeLoop_step_eq_some h hcmp hf hm]
              exact IH
            · rw [hrec] at IH
              obtain ⟨r, hr, hrwf, hrt⟩ := IH
              simp only [Option.map_some']
              refine ⟨r, ?_, hrwf, ?_⟩
              · rw [mergeLoop_step_eq_some h hcmp hf hm]
                exact hr
              · rw [hrt, htake', List.append_assoc]
                rfl
      · -- .gt
        have hstor : storageCmp (self.ordered_keys.getD si dfltKey).key
            (other.ordered_keys.getD oi dfltKey).key = .gt := hcmp
        rcases hf : f (other.values.getD
            (other.ordered_keys.getD oi dfltKey).value_id dfltComponent)
        · -- filter rejects: skip other's entry
          rw [hds, hdo, mergeAssoc_cc_gt_reject hstor hf, ← hds]
          have IH := ihN self si (oi + 1) (by omega) hwf hsi h.2
          rcases hrec : mergeAssoc f ((self.toList).drop si)
              ((other.toList).drop (oi + 1)) with _ | t
          · rw [hrec] at IH
            rw [mergeLoop_step_gt_reject h hcmp hf]
            exact IH
          · rw [hrec] at IH
            obtain ⟨r, hr, hrwf, hrt⟩ := IH
            refine ⟨r, ?_, hrwf, hrt⟩
            rw [mergeLoop_step_gt_reject h hcmp hf]
            exact hr
        · -- filter accepts: splice a copy of other's entry
          rw [hds, hdo, mergeAssoc_cc_gt_accept hstor hf, ← hds]
          have hwf' : Object.WF
              { values := self.values ++
                  [other.values.getD
                    (other.ordered_keys.getD oi dfltKey).value_id dfltComponent],
                ordered_keys := vecInsert self.ordered_keys si
                  ⟨(other.ordered_keys.getD oi dfltKey).key,
                    self.values.length⟩ } :=
            wf_push_insert self si _ _ (le_of_lt h.1) hwf
          have htl' := toList_push_insert self si
            (other.ordered_keys.getD oi dfltKey).key
            (other.values.getD (other.ordered_keys.getD oi dfltKey).value_id
              dfltComponent) (le_of_lt h.1) hwf
          have hkl : (vecInsert self.ordered_keys si
              (⟨(other.ordered_keys.getD oi dfltKey).key,
                self.values.length⟩ : Key)).length =
              self.ordered_keys.length + 1 :=
            vecInsert_length _ _ _ (le_of_lt h.1)
          have hdrop' : (Object.toList
              { values := self.values ++
                  [other.values.getD
                    (other.ordered_keys.getD oi dfltKey).value_id dfltComponent],
                ordered_keys := vecInsert self.ordered_keys si
                  ⟨(other.ordered_keys.getD oi dfltKey).key,
                    self.values.length⟩ }).drop (si + 1) =
              (self.toList).drop si := by
            rw [htl']
            exact drop_middle_eq _ _ _ si
              (length_toList_take self si (le_of_lt h.1))
          have htake' : (Object.toList
              { values := self.values ++
                  [other.values.getD
                    (other.ordered_keys.getD oi dfltKey).value_id dfltComponent],
                ordered_keys := vecInsert self.ordered_keys si
                  ⟨(other.ordered_keys.getD oi dfltKey).key,
                    self.values.length⟩ }).take (si + 1) =
              (self.toList).take si ++
                [((other.ordered_keys.getD oi dfltKey).key,
                  other.values.getD
                    (other.ordered_keys.getD oi dfltKey).value_id
                      dfltComponent)] := by
            rw [htl']
            exact take_middle_eq _ _ _ si
              (length_toList_take self si (le_of_lt h.1))
          have IH := ihN
            { values := self.values ++
                [other.values.getD
                  (other.ordered_keys.getD oi dfltKey).value_id dfltComponent],
              ordered_keys := vecInsert self.ordered_keys si
                ⟨(other.ordered_keys.getD oi dfltKey).key,
                  self.values.length⟩ }
            (si + 1) (oi + 1)
            (by
              show (other.ordered_keys.length - (oi + 1)) +
                ((vecInsert self.ordered_keys si _).length - (si + 1)) ≤ N
              rw [hkl]
              omega)
            hwf'
            (by
              show si + 1 ≤ (vecInsert self.ordered_keys si _).length
              rw [hkl]
              omega)
            h.2
          rw [hdrop'] at IH
          rcases hrec : mergeAssoc f ((self.toList).drop si)
              ((other.toList).drop (oi + 1)) with _ | t
          · rw [hrec] at IH
            simp only [Option.map_none']
            rw [mergeLoop_step_gt_accept h hcmp hf]
            exact IH
          · rw [hrec] at IH
            obtain ⟨r, hr, hrwf, hrt⟩ := IH
            simp only [Option.map_some']
            refine ⟨r, ?_, hrwf, ?_⟩
            · rw [mergeLoop_step_gt_accept h hcmp hf]
              exact hr
            · rw [hrt, htake', List.append_assoc]
              rfl

theorem sortedKeys_iff_toList (o : Object) : o.sortedKeys ↔ keysSorted o.toList := by
  rw [Object.sortedKeys, keysSorted, toList_eq_map, List.pairwise_map]
  rfl

/-- C4: for sorted, well-formed stores whose shared `Name`s wrap equal
concrete component types (the data model's construction contract — see C5),
`Object::merge_with_filter` succeeds, keeps the store well-formed and
sorted, and per `Name` behaves exactly as the claim describes: a name on
both sides has `a`'s value merged with `b`'s by the component's merge rule
precisely when the filter accepts `b`'s value and is left untouched
otherwise; a name only in `a` keeps its value; a name only in `b` is
copied in exactly when the filter accepts it (and dropped otherwise). -/
theorem c4_merge_with_filter (a b : Object) (f : AnyComponent → Bool)
    (hwa : a.WF) (hsa : a.sortedKeys) (hsb : b.sortedKeys)
    (hco : typeCoherent a.toList b.toList) :
    ∃ r, a.merge_with_filter b f = some r ∧ r.WF ∧ r.sortedKeys ∧
      ∀ n, lookupAssoc r.toList n = mergePointwise f a.toList b.toList n := by
  obtain ⟨t, ht, hts, _, htlook⟩ := mergeAssoc_spec f a.toList b.toList
    ((sortedKeys_iff_toList a).mp hsa) ((sortedKeys_iff_toList b).mp hsb) hco
  have href := mergeLoop_refines_aux b f
    (b.ordered_keys.length + a.ordered_keys.length) a 0 0 (by omega) hwa
    (by omega) (by omega)
  simp only [List.drop_zero] at href
  rw [ht] at href
  obtain ⟨r, hr, hrwf, hrt⟩ := href
  simp only [List.take_zero, List.nil_append] at hrt
  refine ⟨r, hr, hrwf, ?_, ?_⟩
  · rw [sortedKeys_iff_toList, hrt]
    exact hts
  · intro n
    rw [hrt, htlook n]

/-- Concrete component types for C4's witness. -/
def waT : ComponentType := ⟨30, ⟨0, 1⟩, false, fun s o => s + o⟩

def wbT : ComponentType := ⟨31, ⟨0, 2⟩, true, fun s o => s + o⟩

def wcT : ComponentType := ⟨32, ⟨0, 3⟩, true, fun s o => s + o⟩

/-- Witness for C4 at concrete sorted stores: `a` holds names `⟨0,1⟩, ⟨0,2⟩`,
`b` holds `⟨0,2⟩, ⟨0,3⟩`, and the filter is `AnyComponent::inherited`. -/
theorem c4_merge_with_filter_witness :
    (Object.WF ⟨[⟨waT, 1⟩, ⟨wbT, 2⟩], [⟨⟨0, 1⟩, 0⟩, ⟨⟨0, 2⟩, 1⟩]⟩ ∧
      Object.sortedKeys ⟨[⟨waT, 1⟩, ⟨wbT, 2⟩], [⟨⟨0, 1⟩, 0⟩, ⟨⟨0, 2⟩, 1⟩]⟩ ∧
      Object.sortedKeys ⟨[⟨wbT, 5⟩, ⟨wcT, 7⟩], [⟨⟨0, 2⟩, 0⟩, ⟨⟨0, 3⟩, 1⟩]⟩) ∧
    ∃ r, Object.merge_with_filter ⟨[⟨waT, 1⟩, ⟨wbT, 2⟩], [⟨⟨0, 1⟩, 0⟩, ⟨⟨0, 2⟩, 1⟩]⟩
        ⟨[⟨wbT, 5⟩, ⟨wcT, 7⟩], [⟨⟨0, 2⟩, 0⟩, ⟨⟨0, 3⟩, 1⟩]⟩
        AnyComponent.inherited = some r ∧ r.WF ∧ r.sortedKeys ∧
      ∀ n, lookupAssoc r.toList n = mergePointwise AnyComponent.inherited
        (Object.toList ⟨[⟨waT, 1⟩, ⟨wbT, 2⟩], [⟨⟨0, 1⟩, 0⟩, ⟨⟨0, 2⟩, 1⟩]⟩)
        (Object.toList ⟨[⟨wbT, 5⟩, ⟨wcT, 7⟩], [⟨⟨0, 2⟩, 0⟩, ⟨⟨0, 3⟩, 1⟩]⟩) n :=
  ⟨⟨by decide, by decide, by decide⟩,
    c4_merge_with_filter
      ⟨[⟨waT, 1⟩, ⟨wbT, 2⟩], [⟨⟨0, 1⟩, 0⟩, ⟨⟨0, 2⟩, 1⟩]⟩
      ⟨[⟨wbT, 5⟩, ⟨wcT, 7⟩], [⟨⟨0, 2⟩, 0⟩, ⟨⟨0, 3⟩, 1⟩]⟩
      AnyComponent.inherited (by decide) (by decide) (by decide) (by decide)⟩
